import Mathlib

/-!
Shallow embedding of the fun_ofdm 802.11a OFDM transceiver (C++ sources under
src/) and proofs about it.  Machine integers are modelled as `Nat`/`Int`;
`double` arithmetic that the relevant code performs exactly (integer-valued
tables, `±1` BPSK points, rational scale factors) is modelled over `ℚ`;
complex baseband samples are pairs of rationals, except where a claim is
about `std::arg`, which is modelled over Mathlib's `ℂ`.
-/

namespace FunOfdm

/-! ## Rates (src/src/rates.h) -/

/-- The 11 PHY rates of the `Rate` enum in rates.h. -/
inductive Rate where
  | RATE_1_2_BPSK
  | RATE_2_3_BPSK
  | RATE_3_4_BPSK
  | RATE_1_2_QPSK
  | RATE_2_3_QPSK
  | RATE_3_4_QPSK
  | RATE_1_2_QAM16
  | RATE_2_3_QAM16
  | RATE_3_4_QAM16
  | RATE_2_3_QAM64
  | RATE_3_4_QAM64
  deriving DecidableEq, Repr

open Rate

/-- The `RateParams` struct of rates.h.  `rel_rate` is the C++ `double`
field; all values stored in it (1.0, 3.0/4.0, 2.0/3.0) are modelled as exact
rationals. -/
structure RateParams where
  rate_field : ℕ
  cbps : ℕ
  dbps : ℕ
  bpsc : ℕ
  rate : Rate
  rel_rate : ℚ
  name : String
  deriving DecidableEq, Repr

/-- The `RateParams(Rate)` constructor switch of rates.h, case for case. -/
def RateParams.ofRate : Rate → RateParams
  | RATE_1_2_BPSK =>
      ⟨0xD, 48, 24, 1, RATE_1_2_BPSK, 1, "1/2 BPSK"⟩
  | RATE_2_3_BPSK =>
      ⟨0xE, 48, 32, 1, RATE_2_3_BPSK, 3 / 4, "2/3 BPSK"⟩
  | RATE_3_4_BPSK =>
      ⟨0xF, 48, 36, 1, RATE_3_4_BPSK, 2 / 3, "3/4 BPSK"⟩
  | RATE_1_2_QPSK =>
      ⟨0x5, 96, 48, 2, RATE_1_2_QPSK, 1, "1/2 QPSK"⟩
  | RATE_2_3_QPSK =>
      ⟨0x6, 96, 64, 2, RATE_2_3_QPSK, 3 / 4, "2/3 QPSK"⟩
  | RATE_3_4_QPSK =>
      ⟨0x7, 96, 72, 2, RATE_3_4_QPSK, 2 / 3, "3/4 QPSK"⟩
  | RATE_1_2_QAM16 =>
      ⟨0x9, 192, 96, 4, RATE_1_2_QAM16, 1, "1/2 QAM16"⟩
  | RATE_2_3_QAM16 =>
      ⟨0xA, 192, 128, 4, RATE_2_3_QAM16, 3 / 4, "2/3 QAM16"⟩
  | RATE_3_4_QAM16 =>
      ⟨0xB, 192, 144, 4, RATE_3_4_QAM16, 2 / 3, "3/4 QAM16"⟩
  | RATE_2_3_QAM64 =>
      ⟨0x1, 288, 192, 6, RATE_2_3_QAM64, 3 / 4, "2/3 QAM64"⟩
  | RATE_3_4_QAM64 =>
      ⟨0x3, 288, 216, 6, RATE_3_4_QAM64, 2 / 3, "3/4 QAM64"⟩

/-- The `VALID_RATES` vector of rates.h (valid SIGNAL rate-field values). -/
def VALID_RATES : List ℕ := [0xD, 0xE, 0xF, 0x5, 0x6, 0x7, 0x9, 0xA, 0xB, 0x1, 0x3]

/-- `RateParams::FromRateField` of rates.h.  The `default: assert(false)`
branch (an abort, no value is returned) is modelled as `none`. -/
def RateParams.FromRateField : ℕ → Option RateParams
  | 0xD => some (RateParams.ofRate RATE_1_2_BPSK)
  | 0xE => some (RateParams.ofRate RATE_2_3_BPSK)
  | 0xF => some (RateParams.ofRate RATE_3_4_BPSK)
  | 0x5 => some (RateParams.ofRate RATE_1_2_QPSK)
  | 0x6 => some (RateParams.ofRate RATE_2_3_QPSK)
  | 0x7 => some (RateParams.ofRate RATE_3_4_QPSK)
  | 0x9 => some (RateParams.ofRate RATE_1_2_QAM16)
  | 0xA => some (RateParams.ofRate RATE_2_3_QAM16)
  | 0xB => some (RateParams.ofRate RATE_3_4_QAM16)
  | 0x1 => some (RateParams.ofRate RATE_2_3_QAM64)
  | 0x3 => some (RateParams.ofRate RATE_3_4_QAM64)
  | _ => none

/-! ## Puncturer (src/src/puncturer.cpp) -/

/-- The coding-rate grouping used by the `switch(rate_params.rate)`
statements of puncturer.cpp (case groups 1/2, 2/3, 3/4). -/
inductive Coding where
  | half
  | twoThirds
  | threeQuarters
  deriving DecidableEq, Repr

/-- Which case group of puncturer.cpp a rate falls into. -/
def Rate.coding : Rate → Coding
  | RATE_1_2_BPSK | RATE_1_2_QPSK | RATE_1_2_QAM16 => Coding.half
  | RATE_2_3_BPSK | RATE_2_3_QPSK | RATE_2_3_QAM16 | RATE_2_3_QAM64 => Coding.twoThirds
  | RATE_3_4_BPSK | RATE_3_4_QPSK | RATE_3_4_QAM16 | RATE_3_4_QAM64 => Coding.threeQuarters

/-- The 3/4 puncturing loop of `puncturer::puncture`: of every 6 input
entries keep indices 0, 1, 3, 5.  The C++ loop reads full groups of 6 by
index (reading past the end is undefined behaviour there); an incomplete
trailing group is dropped here and never arises in the verified domain. -/
def puncture34 : List ℕ → List ℕ
  | b0 :: b1 :: _ :: b3 :: _ :: b5 :: rest => b0 :: b1 :: b3 :: b5 :: puncture34 rest
  | _ => []

/-- The 2/3 puncturing loop of `puncturer::puncture`: of every 4 input
entries keep indices 0, 2, 3. -/
def puncture23 : List ℕ → List ℕ
  | b0 :: _ :: b2 :: b3 :: rest => b0 :: b2 :: b3 :: puncture23 rest
  | _ => []

/-- `puncturer::puncture` of puncturer.cpp. -/
def puncture (data : List ℕ) (r : Rate) : List ℕ :=
  match r.coding with
  | Coding.half => data
  | Coding.threeQuarters => puncture34 data
  | Coding.twoThirds => puncture23 data

/-- The 3/4 depuncturing loop of `puncturer::depuncture`: every 4 input
entries expand to 6, inserting the erasure value 127 at indices 2 and 4. -/
def depuncture34 : List ℕ → List ℕ
  | b0 :: b1 :: b2 :: b3 :: rest => b0 :: b1 :: 127 :: b2 :: 127 :: b3 :: depuncture34 rest
  | _ => []

/-- The 2/3 depuncturing loop of `puncturer::depuncture`: every 3 input
entries expand to 4, inserting the erasure value 127 at index 1. -/
def depuncture23 : List ℕ → List ℕ
  | b0 :: b1 :: b2 :: rest => b0 :: 127 :: b1 :: b2 :: depuncture23 rest
  | _ => []

/-- `puncturer::depuncture` of puncturer.cpp. -/
def depuncture (data : List ℕ) (r : Rate) : List ℕ :=
  match r.coding with
  | Coding.half => data
  | Coding.threeQuarters => depuncture34 data
  | Coding.twoThirds => depuncture23 data

/-- The puncturing period of a rate as stated in the claim: 6 for the
3/4-coded rates, 4 for the 2/3-coded rates, 1 (any length) for 1/2. -/
def punctPeriod (r : Rate) : ℕ :=
  match r.coding with
  | Coding.half => 1
  | Coding.threeQuarters => 6
  | Coding.twoThirds => 4

/-- Whether position `i` of a coded block is a puncture hole for rate `r`:
indices 2 and 4 of each group of 6 for 3/4, index 1 of each group of 4 for
2/3, none for 1/2. -/
def puncturedPos (r : Rate) (i : ℕ) : Bool :=
  match r.coding with
  | Coding.half => false
  | Coding.threeQuarters => i % 6 = 2 || i % 6 = 4
  | Coding.twoThirds => i % 4 = 1

/-! ## Depuncture-of-puncture lemmas -/

lemma dp34_cons6 (b0 b1 b2 b3 b4 b5 : ℕ) (rest : List ℕ) :
    depuncture34 (puncture34 (b0 :: b1 :: b2 :: b3 :: b4 :: b5 :: rest)) =
      b0 :: b1 :: 127 :: b3 :: 127 :: b5 :: depuncture34 (puncture34 rest) := by
  simp [puncture34, depuncture34]

lemma dp23_cons4 (b0 b1 b2 b3 : ℕ) (rest : List ℕ) :
    depuncture23 (puncture23 (b0 :: b1 :: b2 :: b3 :: rest)) =
      b0 :: 127 :: b2 :: b3 :: depuncture23 (puncture23 rest) := by
  simp [puncture23, depuncture23]

lemma dp34_spec (n : ℕ) : ∀ b : List ℕ, b.length = n → 6 ∣ n →
    (depuncture34 (puncture34 b)).length = b.length ∧
    ∀ i < b.length, (depuncture34 (puncture34 b)).getD i 0 =
      if i % 6 = 2 ∨ i % 6 = 4 then 127 else b.getD i 0 := by
  induction n using Nat.strong_induction_on with
  | _ n ih =>
    intro b hlen hdvd
    match b with
    | [] => exact ⟨by simp [puncture34, depuncture34], by simp⟩
    | [b0] | [b0, b1] | [b0, b1, b2] | [b0, b1, b2, b3] | [b0, b1, b2, b3, b4] =>
        subst hlen; simp at hdvd <;> omega
    | b0 :: b1 :: b2 :: b3 :: b4 :: b5 :: rest =>
        have hlen6 : rest.length + 6 = n := by simpa using hlen
        have ih' := ih (n - 6) (by omega) rest (by omega) (by omega)
        rw [dp34_cons6]
        refine ⟨by simp [ih'.1], ?_⟩
        intro i hi
        by_cases hsix : i < 6
        · interval_cases i <;> simp
        · have hj : i = (i - 6) + 6 := by omega
          rw [hj]
          have hmod : ((i - 6) + 6) % 6 = (i - 6) % 6 := by omega
          rw [hmod]
          have hrest := ih'.2 (i - 6) (by simp at hi ⊢; omega)
          simpa using hrest

lemma dp23_spec (n : ℕ) : ∀ b : List ℕ, b.length = n → 4 ∣ n →
    (depuncture23 (puncture23 b)).length = b.length ∧
    ∀ i < b.length, (depuncture23 (puncture23 b)).getD i 0 =
      if i % 4 = 1 then 127 else b.getD i 0 := by
  induction n using Nat.strong_induction_on with
  | _ n ih =>
    intro b hlen hdvd
    match b with
    | [] => exact ⟨by simp [puncture23, depuncture23], by simp⟩
    | [b0] | [b0, b1] | [b0, b1, b2] =>
        subst hlen; simp at hdvd <;> omega
    | b0 :: b1 :: b2 :: b3 :: rest =>
        have hlen4 : rest.length + 4 = n := by simpa using hlen
        have ih' := ih (n - 4) (by omega) rest (by omega) (by omega)
        rw [dp23_cons4]
        refine ⟨by simp [ih'.1], ?_⟩
        intro i hi
        by_cases hfour : i < 4
        · interval_cases i <;> simp
        · have hj : i = (i - 4) + 4 := by omega
          rw [hj]
          have hmod : ((i - 4) + 4) % 4 = (i - 4) % 4 := by omega
          rw [hmod]
          have hrest := ih'.2 (i - 4) (by simp at hi ⊢; omega)
          simpa using hrest

/-! ## Claim theorems: rates and puncturer -/

/-- Claim C4, counterexample: at `RATE_1_2_BPSK` the stored values have
`dbps = 24` but `cbps · rel_rate = 48 · 1.0 = 48`, so the claimed equation
`dbps = cbps · rel_rate` is false. -/
theorem claim_C4_counterexample :
    ¬ (((RateParams.ofRate Rate.RATE_1_2_BPSK).dbps : ℚ) =
       ((RateParams.ofRate Rate.RATE_1_2_BPSK).cbps : ℚ) *
         (RateParams.ofRate Rate.RATE_1_2_BPSK).rel_rate) := by
  norm_num [RateParams.ofRate]

/-- Claim C4, amended: for every rate `cbps = 48 · bpsc` holds, and the
relation tying `dbps` to the stored relative coding rate is
`cbps = 2 · dbps · rel_rate` (equivalently `dbps = cbps / (2 · rel_rate)`),
since `rel_rate` stores the length ratio of the punctured stream to the
rate-1/2 coded stream. -/
theorem claim_C4_amended (r : Rate) :
    (RateParams.ofRate r).cbps = 48 * (RateParams.ofRate r).bpsc ∧
    ((RateParams.ofRate r).cbps : ℚ) =
      2 * ((RateParams.ofRate r).dbps : ℚ) * (RateParams.ofRate r).rel_rate := by
  cases r <;> exact ⟨by norm_num [RateParams.ofRate], by norm_num [RateParams.ofRate]⟩

set_option maxRecDepth 4000 in
/-- Claim C10: `RateParams::FromRateField` reaches `assert(false)` (modelled
`none`) exactly for the rate-field values outside `VALID_RATES`, and on the
valid values it returns the `RateParams` whose `rate_field` equals the
argument. -/
theorem claim_C10 : ∀ rf : ℕ, rf < 256 →
    (RateParams.FromRateField rf = none ↔ rf ∉ VALID_RATES) ∧
    (∀ rp ∈ RateParams.FromRateField rf, rp.rate_field = rf) := by
  decide

/-- Claim C10 witness at the concrete rate field 0xD. -/
theorem claim_C10_witness :
    (13 : ℕ) < 256 ∧
    ((RateParams.FromRateField 13 = none ↔ (13 : ℕ) ∉ VALID_RATES) ∧
     (∀ rp ∈ RateParams.FromRateField 13, rp.rate_field = 13)) :=
  ⟨by decide, claim_C10 13 (by decide)⟩

/-- Claim C7: for every rate and every block whose length is a multiple of
the puncturing period, `depuncture (puncture b r) r` has the length of `b`,
agrees with `b` at the non-punctured positions, and holds the erasure value
127 at every punctured position. -/
theorem claim_C7 (r : Rate) (b : List ℕ) (h : punctPeriod r ∣ b.length) :
    (depuncture (puncture b r) r).length = b.length ∧
    ∀ i < b.length, (depuncture (puncture b r) r).getD i 0 =
      if puncturedPos r i then 127 else b.getD i 0 := by
  rcases hc : r.coding with _ | _ | _
  · refine ⟨by simp [puncture, depuncture, hc], ?_⟩
    intro i hi
    simp [puncture, depuncture, puncturedPos, hc]
  · have h4 : 4 ∣ b.length := by simpa [punctPeriod, hc] using h
    have hs := dp23_spec b.length b rfl h4
    refine ⟨by simpa [puncture, depuncture, hc] using hs.1, ?_⟩
    intro i hi
    have := hs.2 i hi
    simpa [puncture, depuncture, puncturedPos, hc, decide_eq_true_eq] using this
  · have h6 : 6 ∣ b.length := by simpa [punctPeriod, hc] using h
    have hs := dp34_spec b.length b rfl h6
    refine ⟨by simpa [puncture, depuncture, hc] using hs.1, ?_⟩
    intro i hi
    have := hs.2 i hi
    simpa [puncture, depuncture, puncturedPos, hc, decide_eq_true_eq] using this

/-- Claim C7 witness at rate 3/4 QPSK on a concrete block of 6 bits:
the punctured positions 2 and 4 come back as 127 and the rest as the
original bits. -/
theorem claim_C7_witness :
    punctPeriod Rate.RATE_3_4_QPSK ∣ ([1, 0, 1, 1, 0, 1] : List ℕ).length ∧
    ((depuncture (puncture [1, 0, 1, 1, 0, 1] Rate.RATE_3_4_QPSK)
        Rate.RATE_3_4_QPSK).length = ([1, 0, 1, 1, 0, 1] : List ℕ).length ∧
     ∀ i < ([1, 0, 1, 1, 0, 1] : List ℕ).length,
       (depuncture (puncture [1, 0, 1, 1, 0, 1] Rate.RATE_3_4_QPSK)
          Rate.RATE_3_4_QPSK).getD i 0 =
         if puncturedPos Rate.RATE_3_4_QPSK i then 127
         else ([1, 0, 1, 1, 0, 1] : List ℕ).getD i 0) :=
  ⟨by decide, claim_C7 Rate.RATE_3_4_QPSK [1, 0, 1, 1, 0, 1] (by decide)⟩

/-! ## Interleaver (src/src/interleaver.h, interleaver.cpp) -/

/-- The permutation `BitInterleave::index` of interleaver.h, with
`d_cbps = nbits * ncarriers`, `d_bpsc = nbits`, `d_num_chunks = 16`. -/
def interleaveIndex (d_cbps d_bpsc k : ℕ) : ℕ :=
  let s := max (d_bpsc / 2) 1
  let i := (d_cbps / 16) * (k % 16) + k / 16
  s * (i / s) + (i + d_cbps - 16 * i / d_cbps) % s

/-- `BitInterleave::fill` of interleaver.h: the forward map assigns
`v[i] = index(i)`, the inverse map assigns `v[index(i)] = i`. -/
def interleaveMapFill (d_cbps d_bpsc : ℕ) (inverse : Bool) : List ℕ :=
  if inverse then
    (List.range d_cbps).foldl
      (fun v i => v.set (interleaveIndex d_cbps d_bpsc i) i)
      (List.replicate d_cbps 0)
  else
    (List.range d_cbps).foldl
      (fun v i => v.set i (interleaveIndex d_cbps d_bpsc i))
      (List.replicate d_cbps 0)

/-- One block of the scatter loops of `interleaver::interleave` and
`interleaver::deinterleave`: `out[m[y]] = blk[y]` for `y < bs`. -/
def scatterBlock (bs : ℕ) (m blk : List ℕ) : List ℕ :=
  (List.range bs).foldl
    (fun out y => out.set (m.getD y 0) (blk.getD y 0))
    (List.replicate bs 0)

/-- The outer loops of interleaver.cpp, which scatter each consecutive
block of `bs = map.size()` entries.  The fuel argument (instantiated with
`data.length`, an upper bound on the number of blocks) only makes the
recursion structural; an incomplete trailing block is undefined behaviour
in the C++ (out-of-bounds reads) and is dropped here. -/
def chunkScatterGo (bs : ℕ) (m : List ℕ) : ℕ → List ℕ → List ℕ
  | 0, _ => []
  | fuel + 1, data =>
      if bs = 0 ∨ data.length < bs then []
      else scatterBlock bs m (data.take bs) ++ chunkScatterGo bs m fuel (data.drop bs)

/-- Block-wise scatter of a whole buffer through the map `m`. -/
def chunkScatter (bs : ℕ) (m : List ℕ) (data : List ℕ) : List ℕ :=
  chunkScatterGo bs m data.length data

/-- `interleaver::interleave` of interleaver.cpp: always uses the map of
`BitInterleave(48, 1)`, for every rate. -/
def interleave (data : List ℕ) : List ℕ :=
  chunkScatter 48 (interleaveMapFill 48 1 false) data

/-- `interleaver::deinterleave` of interleaver.cpp: always uses the inverse
map of `BitInterleave(48, 1)`, for every rate. -/
def deinterleave (data : List ℕ) : List ℕ :=
  chunkScatter 48 (interleaveMapFill 48 1 true) data

/-- Modelled from the spec: the §17.3.5.6 deinterleaver that the spec
describes for payload data, with block size `cbps(r)` and modulation depth
`s = max(bpsc(r)/2, 1)`; written only to be compared against the source's
`deinterleave`. -/
def specDeinterleave (r : Rate) (data : List ℕ) : List ℕ :=
  chunkScatter (RateParams.ofRate r).cbps
    (interleaveMapFill (RateParams.ofRate r).cbps (RateParams.ofRate r).bpsc true) data

set_option maxRecDepth 8000 in
/-- Claim C5: at rate 1/2 QPSK the source's payload deinterleaver does not
perform the claimed `cbps`-sized (96-bit) block permutation: on the
concrete 96-bit block `0,1,...,95` the source's `deinterleave` (which
always permutes 48-bit sub-blocks with the BPSK map) differs from the
§17.3.5.6 permutation at block size 96. -/
theorem claim_C5_code_divergence :
    deinterleave (List.range 96) ≠ specDeinterleave Rate.RATE_1_2_QPSK (List.range 96) := by
  decide

/-! ## Bit parity (parity.cpp; parity.h is not under src/) -/

/-- Fuel-driven helper for `parity`; the fuel (first argument) is an upper
bound on the value and only makes the recursion structural. -/
def parityGo : ℕ → ℕ → ℕ
  | 0, _ => 0
  | fuel + 1, n => if n = 0 then 0 else (parityGo fuel (n / 2) + n % 2) % 2

/-- Modelled from the spec: the `parity` function lives in parity.h, which
is not under src/; per the spec's "even parity over rate + length packed
into a 17-bit word; the parity bit completes even parity" and parity.cpp's
`Partab` (the count of set bits, masked to 1 bit), it is the XOR of all
bits of its argument. -/
def parity (n : ℕ) : ℕ := parityGo n n

/-! ## Viterbi (src/src/viterbi.h, viterbi.cpp) -/

/-- `viterbi::conv_encode` of viterbi.cpp: K = 7, rate 1/2, polynomials
`POLYS = {121, 91}`; bits are read MSB-first from the input bytes and each
of the `data_bits + 6` shifts emits one parity per polynomial. -/
def conv_encode (data : List ℕ) (data_bits : ℕ) : List ℕ :=
  ((List.range (data_bits + 6)).foldl
    (fun (acc : ℕ × List ℕ) i =>
      let b := data.getD (i / 8) 0
      let bit := (b >>> (7 - i % 8)) &&& 1
      let sr := (acc.1 <<< 1) ||| bit
      (sr, acc.2 ++ [parity (sr &&& 121), parity (sr &&& 91)]))
    (0, [])).2

/-- Row 0 of `Branchtab` as filled in `viterbi::viterbi_alloc`
(polynomial 121, positive, so the sign test drops out). -/
def branchtab0 (s : ℕ) : ℕ := if parity ((2 * s) &&& 121) = 1 then 255 else 0

/-- Row 1 of `Branchtab` (polynomial 91). -/
def branchtab1 (s : ℕ) : ℕ := if parity ((2 * s) &&& 91) = 1 then 255 else 0

/-- Saturating byte addition, `_mm_adds_epu8` on one lane. -/
def satAdd (a b : ℕ) : ℕ := min (a + b) 255

/-- One trellis step of `viterbi::FULL_SPIRAL`, scalar semantics of the
packed-byte butterfly: branch metric
`bm k = ((s0 xor B0[k]) + (s1 xor B1[k]) + 1) / 8` (the `avg`, shift and
mask sequence), new metrics
`new[2k] = min(old[k] + bm, old[k+32] + (63-bm))` and
`new[2k+1] = min(old[k] + (63-bm), old[k+32] + bm)` with saturating adds,
decision bit `s` of the 64-bit decision word set when the `old[k+32]` arm
attains the minimum (ties included, as `_mm_cmpeq_epi8` against that arm),
and conditional metric renormalization when `new[0] > 210`. -/
def vitStep (old : List ℕ) (s0 s1 : ℕ) : List ℕ × ℕ :=
  let bm := fun k => ((s0 ^^^ branchtab0 k) + (s1 ^^^ branchtab1 k) + 1) / 8
  let mA := fun k => satAdd (old.getD k 0) (bm k)
  let mB := fun k => satAdd (old.getD (k + 32) 0) (63 - bm k)
  let mC := fun k => satAdd (old.getD k 0) (63 - bm k)
  let mD := fun k => satAdd (old.getD (k + 32) 0) (bm k)
  let newM := (List.range 32).foldl
    (fun acc k => acc ++ [min (mB k) (mA k), min (mD k) (mC k)]) []
  let dec := (List.range 32).foldl
    (fun acc k =>
      acc + (if mB k ≤ mA k then 2 ^ (2 * k) else 0) +
        (if mD k ≤ mC k then 2 ^ (2 * k + 1) else 0)) 0
  let normM :=
    if 210 < newM.getD 0 0 then
      let m := newM.foldl min 255
      newM.map (fun x => x - m)
    else newM
  (normM, dec)

/-- The decision words produced by `viterbi_update_blk_SPIRAL`: metrics
start at 63 everywhere except 0 at state 0 (`viterbi_init`), the kernel
processes `2 * (nbitsTot / 2)` trellis steps (two per loop iteration), and
the decisions of any unprocessed trailing step keep their `memset` value
0. -/
def vitDecisions (syms : List ℕ) (nbitsTot : ℕ) : List ℕ :=
  let steps := 2 * (nbitsTot / 2)
  let init := (List.replicate 64 63).set 0 0
  let run := (List.range steps).foldl
    (fun (acc : List ℕ × List ℕ) t =>
      let st := vitStep acc.2 (syms.getD (2 * t) 0) (syms.getD (2 * t + 1) 0)
      (acc.1 ++ [st.2], st.1))
    ([], init)
  run.1 ++ List.replicate (nbitsTot - steps) 0

/-- `viterbi::viterbi_chainback`: `endstate` starts at
`(0 % 64) << ADDSHIFT = 0`, each of the `nbits` iterations (counting `j`
down) reads decision bit `endstate >> 2` of the word 6 past step `j`,
shifts it in at bit 7, and stores the register byte at `data[j / 8]`. -/
def chainGo (decs : List ℕ) : ℕ → ℕ → List ℕ → List ℕ
  | 0, _, data => data
  | j + 1, es, data =>
      let k := (decs.getD (6 + j) 0 >>> (es >>> 2)) &&& 1
      let es2 := (es >>> 1) ||| (k <<< 7)
      chainGo decs j es2 (data.set (j / 8) es2)

/-- `viterbi::conv_decode` of viterbi.cpp: run the trellis over
`data_bits + 6` steps and chain back `data_bits` bits into `nbytes` output
bytes (the output vector size at the call sites). -/
def conv_decode (symbols : List ℕ) (data_bits nbytes : ℕ) : List ℕ :=
  chainGo (vitDecisions symbols (data_bits + 6)) data_bits 0 (List.replicate nbytes 0)

/-! ## BPSK modulation (src/src/qam.h, modulator.cpp) -/

/-- A complex baseband sample modelled as a pair of exact rationals. -/
def Qc : Type := ℚ × ℚ

/-- Truncation toward zero, the C++ `double` → `int` conversion in
`QAM::decode`. -/
def truncQ (q : ℚ) : ℤ := if 0 ≤ q then ⌊q⌋ else -⌊-q⌋

/-- `QAM::clamp`: saturate an `int` into 0..255. -/
def clamp (i : ℤ) : ℕ := if i < 0 then 0 else if 255 < i then 255 else i.toNat

/-- `QAM<1>(1.0)::decode` on one axis (BPSK): `d_gain = 7`, the scale
factor `sqrt(1.0 * 1 / 1) = 1` is exact, so `d_scale_d = 128`; the single
soft bit is `clamp(trunc(sym * 128) + 128)`. -/
def bpskDecode (sym : ℚ) : ℕ := clamp (truncQ (sym * 128) + 128)

/-- `modulator::demodulate` for the BPSK rates: one soft bit per sample,
from the real part. -/
def demodulateBPSK (data : List (ℚ × ℚ)) : List ℕ :=
  data.map (fun c => bpskDecode c.1)

/-- `QAM<1>(1.0)::encode` (BPSK): the constellation point is
`bit * 2 - 1` in `{-1, +1}` scaled by the exact factor 1. -/
def bpskEncode (bit : ℕ) : ℚ := ((2 * (bit : ℤ) - 1 : ℤ) : ℚ)

/-- `modulator::modulate` for the BPSK rates: the real part carries the
point, the imaginary part stays 0. -/
def modulateBPSK (data : List ℕ) : List (ℚ × ℚ) :=
  data.map (fun b => ((bpskEncode b, 0) : ℚ × ℚ))

/-! ## PLCP header encode and decode (src/src/ppdu.h, ppdu.cpp) -/

/-- `MAX_FRAME_SIZE` of ppdu.h. -/
def MAX_FRAME_SIZE : ℕ := 2000

/-- The header word built in `ppdu::encoder_header`: rate field at bits
13..16 of a 17-bit word, length at bits 0..11, even-parity completion bit
at 17, then shifted left by 6 tail bits. -/
def headerFieldOf (rate_field len : ℕ) : ℕ :=
  let hf := ((rate_field &&& 0xF) <<< 13) ||| (len &&& 0xFFF)
  let hf2 := if parity hf = 1 then hf ||| 131072 else hf
  hf2 <<< 6

/-- The three header bytes, big-endian (the `htonl` dance in ppdu.cpp). -/
def headerBytes (hf : ℕ) : List ℕ :=
  [(hf >>> 16) &&& 255, (hf >>> 8) &&& 255, hf &&& 255]

/-- `ppdu::encoder_header`: build the 24-bit header word, convolutionally
encode its 18 data bits into 48 coded bits, interleave, BPSK-modulate. -/
def encoder_header (rate_field len : ℕ) : List (ℚ × ℚ) :=
  modulateBPSK (interleave (conv_encode (headerBytes (headerFieldOf rate_field len)) 18))

/-- The decoded fields of `plcp_header` (ppdu.h) populated by
`ppdu::decode_header` (the `service` field is untouched there). -/
structure PlcpHeader where
  rate : Rate
  length : ℕ
  num_symbols : ℕ
  deriving DecidableEq, Repr

/-- The 24-bit word recovered in `ppdu::decode_header`: demodulate,
deinterleave, Viterbi-decode 18 bits, reassemble three bytes big-endian. -/
def headerWord (samples : List (ℚ × ℚ)) : ℕ :=
  let bytes := conv_decode (deinterleave (demodulateBPSK samples)) 18 4
  bytes.getD 0 0 * 65536 + bytes.getD 1 0 * 256 + bytes.getD 2 0

/-- `ppdu::decode_header` of ppdu.cpp: reject on odd parity of the decoded
word, reject an invalid rate field, otherwise populate length, rate and
`num_symbols = ceil((16 + 8*(length+4) + 6) / dbps)` (the `double`
division and `std::ceil` are exact at these magnitudes and are modelled as
the integer ceiling). -/
def decode_header (samples : List (ℚ × ℚ)) : Option PlcpHeader :=
  let w := headerWord samples
  if parity w = 1 then none
  else
    let rate_f := (w >>> 19) &&& 0xF
    let len := (w >>> 6) &&& 0xFFF
    if rate_f ∈ VALID_RATES then
      match RateParams.FromRateField rate_f with
      | some rp =>
          some ⟨rp.rate, len, (16 + 8 * (len + 4) + 6 + rp.dbps - 1) / rp.dbps⟩
      | none => none
    else none

/-! ## Parity and chainback lemmas -/

lemma parityGo_le_one (f n : ℕ) : parityGo f n ≤ 1 := by
  cases f with
  | zero => simp [parityGo]
  | succ f =>
      by_cases h : n = 0
      · simp [parityGo, h]
      · simp [parityGo, h]
        omega

lemma parity_le_one (n : ℕ) : parity n ≤ 1 := parityGo_le_one n n

lemma parityGo_congr (f : ℕ) : ∀ g n : ℕ, n ≤ f → n ≤ g → parityGo f n = parityGo g n := by
  induction f with
  | zero =>
      intro g n hf _
      interval_cases n
      cases g <;> simp [parityGo]
  | succ f ih =>
      intro g n hf hg
      cases g with
      | zero =>
          interval_cases n
          simp [parityGo]
      | succ g =>
          by_cases h : n = 0
          · simp [parityGo, h]
          · simp only [parityGo, h, if_false]
            rw [ih g (n / 2) (by omega) (by omega)]

lemma parity_two_mul (m : ℕ) : parity (2 * m) = parity m := by
  by_cases hm : m = 0
  · simp [hm]
  · obtain ⟨f, hf⟩ : ∃ f, 2 * m = f + 1 := ⟨2 * m - 1, by omega⟩
    unfold parity
    rw [hf]
    simp only [parityGo, Nat.succ_ne_zero, if_false, show (f + 1) ≠ 0 by omega]
    have h2 : (f + 1) / 2 = m := by omega
    have h3 : (f + 1) % 2 = 0 := by omega
    rw [h2, h3, parityGo_congr f m m (by omega) le_rfl]
    have := parityGo_le_one m m
    omega

lemma parity_64_mul (m : ℕ) : parity (64 * m) = parity m := by
  have h64 : 64 * m = 2 * (2 * (2 * (2 * (2 * (2 * m))))) := by ring
  rw [h64, parity_two_mul, parity_two_mul, parity_two_mul, parity_two_mul,
    parity_two_mul, parity_two_mul]

lemma chainGo_succ (decs : List ℕ) (j es : ℕ) (data : List ℕ) :
    chainGo decs (j + 1) es data =
      chainGo decs j ((es >>> 1) ||| ((((decs.getD (6 + j) 0 >>> (es >>> 2)) &&& 1)) <<< 7))
        (data.set (j / 8)
          ((es >>> 1) ||| ((((decs.getD (6 + j) 0 >>> (es >>> 2)) &&& 1)) <<< 7))) := rfl

lemma chainGo_getD2 (decs : List ℕ) :
    ∀ j, j ≤ 16 → ∀ es data, (chainGo decs j es data).getD 2 0 = data.getD 2 0 := by
  intro j
  induction j with
  | zero => intro _ es data; rfl
  | succ j ih =>
      intro hj es data
      rw [chainGo_succ, ih (by omega)]
      have hne : j / 8 ≠ 2 := by omega
      simp [List.getD_eq_getElem?_getD, List.getElem?_set_ne hne]

lemma and_one_cases (x : ℕ) : x &&& 1 = 0 ∨ x &&& 1 = 1 := by
  rw [Nat.and_one_is_mod]
  omega

lemma conv_decode_byte2 (decs : List ℕ) :
    (chainGo decs 18 0 (List.replicate 4 0)).getD 2 0 % 64 = 0 := by
  rw [show (18 : ℕ) = 17 + 1 from rfl, chainGo_succ]
  rw [show (17 : ℕ) = 16 + 1 from rfl, chainGo_succ]
  rw [chainGo_getD2 decs 16 le_rfl]
  generalize decs.getD (6 + 17) 0 >>> (0 >>> 2) = a
  generalize decs.getD (6 + 16) 0 >>> _ = b
  rcases and_one_cases a with h1 | h1 <;> rcases and_one_cases b with h2 | h2 <;>
    rw [h1, h2] <;> decide

lemma headerWord_eq (samples : List (ℚ × ℚ)) :
    headerWord samples =
      (conv_decode (deinterleave (demodulateBPSK samples)) 18 4).getD 0 0 * 65536 +
      (conv_decode (deinterleave (demodulateBPSK samples)) 18 4).getD 1 0 * 256 +
      (conv_decode (deinterleave (demodulateBPSK samples)) 18 4).getD 2 0 := rfl

lemma headerWord_mod64 (samples : List (ℚ × ℚ)) : headerWord samples % 64 = 0 := by
  rw [headerWord_eq]
  unfold conv_decode
  have h2 := conv_decode_byte2 (vitDecisions (deinterleave (demodulateBPSK samples)) (18 + 6))
  omega

/-! ## BPSK hard-decision bridge and decode_header characterization -/

lemma bpsk_roundtrip_bit (b : ℕ) (hb : b ≤ 1) :
    bpskDecode (bpskEncode b) = if b = 0 then 0 else 255 := by
  interval_cases b <;> norm_num [bpskDecode, bpskEncode, truncQ, clamp]

lemma demod_modulate_hard (L : List ℕ) (h : ∀ b ∈ L, b ≤ 1) :
    demodulateBPSK (modulateBPSK L) = L.map (fun b => if b = 0 then 0 else 255) := by
  induction L with
  | nil => rfl
  | cons x xs ih =>
      have hx := bpsk_roundtrip_bit x (h x (by simp))
      have hxs := ih (fun b hb => h b (by simp [hb]))
      show bpskDecode (bpskEncode x) :: demodulateBPSK (modulateBPSK xs) =
        (if x = 0 then 0 else 255) :: xs.map (fun b => if b = 0 then 0 else 255)
      rw [hx, hxs]

lemma fromRateField_of_valid :
    ∀ v : ℕ, v < 16 → v ∈ VALID_RATES →
      (RateParams.FromRateField v).isSome = true ∧
      ∀ rp ∈ RateParams.FromRateField v,
        rp.rate_field = v ∧ (RateParams.ofRate rp.rate).dbps = rp.dbps ∧
          (RateParams.ofRate rp.rate).rate_field = rp.rate_field := by
  decide

lemma rateField_lt16 (w : ℕ) : (w >>> 19) &&& 0xF < 16 :=
  lt_of_le_of_lt Nat.and_le_right (by norm_num)

lemma decode_header_none_of (samples : List (ℚ × ℚ))
    (h : parity (headerWord samples) = 1 ∨ ((headerWord samples >>> 19) &&& 0xF) ∉ VALID_RATES) :
    decode_header samples = none := by
  unfold decode_header
  rcases h with hp | hr
  · simp [hp]
  · by_cases hp : parity (headerWord samples) = 1
    · simp [hp]
    · simp [hp, hr]

lemma decode_header_some_of (samples : List (ℚ × ℚ))
    (hp : parity (headerWord samples) ≠ 1)
    (hr : ((headerWord samples >>> 19) &&& 0xF) ∈ VALID_RATES) :
    ∃ rp, RateParams.FromRateField ((headerWord samples >>> 19) &&& 0xF) = some rp ∧
      rp.rate_field = ((headerWord samples >>> 19) &&& 0xF) ∧
      (RateParams.ofRate rp.rate).dbps = rp.dbps ∧
      (RateParams.ofRate rp.rate).rate_field = rp.rate_field ∧
      decode_header samples =
        some ⟨rp.rate, (headerWord samples >>> 6) &&& 0xFFF,
          (16 + 8 * (((headerWord samples >>> 6) &&& 0xFFF) + 4) + 6 + rp.dbps - 1) / rp.dbps⟩ := by
  obtain ⟨hsome, hall⟩ :=
    fromRateField_of_valid ((headerWord samples >>> 19) &&& 0xF) (rateField_lt16 _) hr
  obtain ⟨rp, hrp⟩ := Option.isSome_iff_exists.mp hsome
  obtain ⟨hfield, hdbps, hrf⟩ := hall rp (by simp [hrp])
  refine ⟨rp, hrp, hfield, hdbps, hrf, ?_⟩
  unfold decode_header
  simp [hp, hr, hrp]

/-! ## Claim theorems: header decode (C3, C6) -/

lemma parity_shiftRight6 (w : ℕ) (hm : w % 64 = 0) : parity w = parity (w >>> 6) := by
  rw [Nat.shiftRight_eq_div_pow, show (2 : ℕ) ^ 6 = 64 from rfl]
  have hw : w = 64 * (w / 64) := by omega
  conv_lhs => rw [hw]
  exact parity_64_mul _

set_option maxRecDepth 16000 in
/-- Claim C3, counterexample: a received header symbol whose decoded length
field is 2001 > MAX_FRAME_SIZE = 2000 is not dropped: `decode_header`
accepts it (the clean BPSK encoding of the header word with rate field 0xD
and length 2001 decodes successfully, populating length 2001). -/
theorem claim_C3_counterexample :
    decode_header (encoder_header 0xD 2001) =
      some ⟨Rate.RATE_1_2_BPSK, 2001, 670⟩ ∧ MAX_FRAME_SIZE < 2001 := by
  constructor
  · have hbits : ∀ b ∈ interleave (conv_encode (headerBytes (headerFieldOf 0xD 2001)) 18),
        b ≤ 1 := by decide
    have hb := demod_modulate_hard _ hbits
    unfold encoder_header decode_header headerWord
    rw [hb]
    decide
  · decide

/-- Claim C3, amended: `ppdu::decode_header` performs no range check of the
decoded length against `MAX_FRAME_SIZE`; it accepts a header exactly when
the decoded word has even parity and a valid rate field, for every decoded
length (which, being a 12-bit field, is at most 4095). -/
theorem claim_C3_amended (samples : List (ℚ × ℚ)) :
    ((decode_header samples).isSome ↔
      parity (headerWord samples) = 0 ∧
        ((headerWord samples >>> 19) &&& 0xF) ∈ VALID_RATES) ∧
    (∀ hd ∈ decode_header samples, hd.length ≤ 4095) := by
  have hle := parity_le_one (headerWord samples)
  constructor
  · constructor
    · intro h
      by_cases hp : parity (headerWord samples) = 1
      · rw [decode_header_none_of samples (Or.inl hp)] at h
        simp at h
      · by_cases hr : ((headerWord samples >>> 19) &&& 0xF) ∈ VALID_RATES
        · exact ⟨by omega, hr⟩
        · rw [decode_header_none_of samples (Or.inr hr)] at h
          simp at h
    · rintro ⟨hp, hr⟩
      obtain ⟨rp, -, -, -, -, heq⟩ := decode_header_some_of samples (by omega) hr
      rw [heq]
      rfl
  · intro hd hmem
    by_cases hp : parity (headerWord samples) = 1
    · rw [decode_header_none_of samples (Or.inl hp)] at hmem
      simp at hmem
    · by_cases hr : ((headerWord samples >>> 19) &&& 0xF) ∈ VALID_RATES
      · obtain ⟨rp, -, -, -, -, heq⟩ := decode_header_some_of samples hp hr
        rw [heq] at hmem
        simp only [Option.mem_def, Option.some.injEq] at hmem
        have : hd.length = (headerWord samples >>> 6) &&& 0xFFF := by rw [← hmem]
        rw [this]
        exact le_trans Nat.and_le_right (by norm_num)
      · rw [decode_header_none_of samples (Or.inr hr)] at hmem
        simp at hmem

/-- Claim C6: `decode_header` fails exactly when the Viterbi-decoded
18-bit header word (bits 6..23 of the reassembled 24-bit word; its low 6
tail bits are always zero) has odd parity — i.e. the parity bit does not
complete even parity over the 17-bit rate+length field — or the 4-bit rate
field is not in `VALID_RATES`; on success the populated header carries the
12-bit length, the rate whose SIGNAL field equals the decoded rate field,
and `num_symbols = ceil((16 + 8*(length+4) + 6) / dbps)` for that rate. -/
theorem claim_C6 (samples : List (ℚ × ℚ)) (_h48 : samples.length = 48) :
    (decode_header samples = none ↔
      parity (headerWord samples >>> 6) = 1 ∨
        ((headerWord samples >>> 19) &&& 0xF) ∉ VALID_RATES) ∧
    (∀ hd, decode_header samples = some hd →
      hd.length = (headerWord samples >>> 6) &&& 0xFFF ∧
      (RateParams.ofRate hd.rate).rate_field = (headerWord samples >>> 19) &&& 0xF ∧
      hd.num_symbols =
        (16 + 8 * (hd.length + 4) + 6 + (RateParams.ofRate hd.rate).dbps - 1) /
          (RateParams.ofRate hd.rate).dbps) := by
  have hpar := parity_shiftRight6 (headerWord samples) (headerWord_mod64 samples)
  have hle := parity_le_one (headerWord samples)
  constructor
  · constructor
    · intro hnone
      by_contra hcon
      push_neg at hcon
      obtain ⟨hp6, hr⟩ := hcon
      obtain ⟨rp, -, -, -, -, heq⟩ :=
        decode_header_some_of samples (by rw [hpar]; exact hp6) hr
      rw [heq] at hnone
      simp at hnone
    · intro h
      rcases h with hp6 | hr
      · exact decode_header_none_of samples (Or.inl (by rw [hpar]; exact hp6))
      · exact decode_header_none_of samples (Or.inr hr)
  · intro hd hsome
    by_cases hp : parity (headerWord samples) = 1
    · rw [decode_header_none_of samples (Or.inl hp)] at hsome
      cases hsome
    · by_cases hr : ((headerWord samples >>> 19) &&& 0xF) ∈ VALID_RATES
      · obtain ⟨rp, -, hfield, hdbps, hrf, heq⟩ := decode_header_some_of samples hp hr
        rw [heq] at hsome
        obtain rfl : (⟨rp.rate, (headerWord samples >>> 6) &&& 0xFFF,
            (16 + 8 * (((headerWord samples >>> 6) &&& 0xFFF) + 4) + 6 + rp.dbps - 1) /
              rp.dbps⟩ : PlcpHeader) = hd := by
          injection hsome
        refine ⟨rfl, ?_, ?_⟩
        · rw [hrf, hfield]
        · simp only [hdbps]
      · rw [decode_header_none_of samples (Or.inr hr)] at hsome
        cases hsome

set_option maxRecDepth 16000 in
/-- Claim C6 witness: the characterization applied to the concrete clean
encoding of a header with rate field 0xD and length 5. -/
theorem claim_C6_witness :
    (encoder_header 0xD 5).length = 48 ∧
    ((decode_header (encoder_header 0xD 5) = none ↔
      parity (headerWord (encoder_header 0xD 5) >>> 6) = 1 ∨
        ((headerWord (encoder_header 0xD 5) >>> 19) &&& 0xF) ∉ VALID_RATES) ∧
    (∀ hd, decode_header (encoder_header 0xD 5) = some hd →
      hd.length = (headerWord (encoder_header 0xD 5) >>> 6) &&& 0xFFF ∧
      (RateParams.ofRate hd.rate).rate_field =
        (headerWord (encoder_header 0xD 5) >>> 19) &&& 0xF ∧
      hd.num_symbols =
        (16 + 8 * (hd.length + 4) + 6 + (RateParams.ofRate hd.rate).dbps - 1) /
          (RateParams.ofRate hd.rate).dbps)) :=
  ⟨by decide, claim_C6 (encoder_header 0xD 5) (by decide)⟩

/-! ## Timing sync CFO estimation (src/src/timing_sync.cpp) -/

/-- The `vector_tag` enum of tagged_vector.h; the C++ enumerator values are
0..6 in declaration order. -/
inductive VectorTag where
  | NONE
  | STS_START
  | STS_END
  | LTS_START
  | LTS1
  | LTS2
  | START_OF_FRAME
  deriving DecidableEq, Repr

/-- The numeric value of a `vector_tag` enumerator (C++ default numbering:
NONE = 0, ..., LTS1 = 4, ...). -/
def VectorTag.toNat : VectorTag → ℕ
  | VectorTag.NONE => 0
  | VectorTag.STS_START => 1
  | VectorTag.STS_END => 2
  | VectorTag.LTS_START => 3
  | VectorTag.LTS1 => 4
  | VectorTag.LTS2 => 5
  | VectorTag.START_OF_FRAME => 6

/-- The CFO-estimation accumulator of `timing_sync::work`
(timing_sync.cpp lines 108..113): the C++ loop header is
`for(int k = LTS1; k < LTS1; k++)`, i.e. it runs `k` from the enum value
`LTS1` while `k < LTS1`; a `for(k = a; k < b; k++)` loop visits
`List.range' a (b - a)`, here with `a = b = LTS1`.  Each iteration would
add `input[k].sample * conj(input[k + LTS_LENGTH].sample)`
(`LTS_LENGTH = 64`). -/
noncomputable def timingSyncAutoCorrAcc (input : List ℂ) : ℂ :=
  (List.range' VectorTag.LTS1.toNat (VectorTag.LTS1.toNat - VectorTag.LTS1.toNat)).foldl
    (fun acc k => acc + input.getD k 0 * (starRingEnd ℂ) (input.getD (k + 64) 0)) 0

/-- `m_phase_offset = std::arg(auto_corr_acc) / 64.0`
(timing_sync.cpp line 114), the per-sample phase offset applied to all
subsequent samples. -/
noncomputable def timingSyncPhaseOffset (input : List ℂ) : ℝ :=
  Complex.arg (timingSyncAutoCorrAcc input) / 64

/-- Claim C2: the code is wrong.  The loop bounds
`for(int k = LTS1; k < LTS1; k++)` are empty (both bounds are the same
enum constant), so for every received input — in particular an LTS with a
genuine carrier-frequency offset — the accumulated sum is 0 and
`m_phase_offset = arg(0)/64 = 0`, never the claimed nonzero
`arg(Σ input[k]·conj(input[k+64]))/64`. -/
theorem claim_C2_code_bug (input : List ℂ) :
    timingSyncAutoCorrAcc input = 0 ∧ timingSyncPhaseOffset input = 0 := by
  have hacc : timingSyncAutoCorrAcc input = 0 := by
    unfold timingSyncAutoCorrAcc
    simp [VectorTag.toNat]
  refine ⟨hacc, ?_⟩
  unfold timingSyncPhaseOffset
  rw [hacc, Complex.arg_zero]
  simp

/-! ## Circular accumulator (src/src/circular_accumulator.h) -/

/-- Complex multiplication on rational pairs (`std::complex` product). -/
def cmul (a b : ℚ × ℚ) : ℚ × ℚ := (a.1 * b.1 - a.2 * b.2, a.1 * b.2 + a.2 * b.1)

/-- Complex conjugate (`std::conj`). -/
def cconj (a : ℚ × ℚ) : ℚ × ℚ := (a.1, -a.2)

/-- Squared magnitude (`std::norm`). -/
def cnormSq (a : ℚ × ℚ) : ℚ := a.1 * a.1 + a.2 * a.2

/-- The `circular_accumulator<T>` template: a ring buffer of the most
recent `size` samples (here always 16) with a running `sum` updated
incrementally on each `add`.  The constructor zero-fills the buffer. -/
structure CircAcc (α : Type) where
  sum : α
  samples : List α
  index : ℕ

/-- `circular_accumulator(size)`: zero sum, zero-filled buffer, index 0. -/
def CircAcc.init (α : Type) [Zero α] (size : ℕ) : CircAcc α :=
  ⟨0, List.replicate size 0, 0⟩

/-- `circular_accumulator::add`: subtract the overwritten sample from the
running sum, add the new one, store it, advance and wrap the index.  (The
C++ NaN guard `if(sample != sample) sample = 0` is a no-op in exact
arithmetic.) -/
def CircAcc.add {α : Type} [Add α] [Sub α] [Zero α] (a : CircAcc α) (v : α) : CircAcc α :=
  ⟨a.sum - a.samples.getD a.index 0 + v,
   a.samples.set a.index v,
   if a.index + 1 ≥ a.samples.length then 0 else a.index + 1⟩

/-- The accumulator state after feeding a whole history of samples into a
fresh size-16 accumulator. -/
def accOf {α : Type} [Add α] [Sub α] [Zero α] (hs : List α) : CircAcc α :=
  hs.foldl CircAcc.add (CircAcc.init α 16)

/-- The sum of the most recent (up to) 16 entries of a history. -/
def winSum {α : Type} [AddCommMonoid α] (hs : List α) : α :=
  (hs.drop (hs.length - 16)).sum

/-- The value held in ring-buffer slot `i` after feeding a history: the
most recent history entry whose position is congruent to `i` mod 16, or 0
if none exists. -/
def slotVal {α : Type} [Zero α] (hs : List α) (i : ℕ) : α :=
  if i < hs.length then hs.getD (hs.length - 1 - ((hs.length - 1 - i) % 16)) 0 else 0

lemma accOf_append {α : Type} [Add α] [Sub α] [Zero α] (hs : List α) (v : α) :
    accOf (hs ++ [v]) = (accOf hs).add v := by
  unfold accOf
  rw [List.foldl_append]
  rfl

lemma accOf_inv {α : Type} [AddCommGroup α] (hs : List α) :
    (accOf hs).samples.length = 16 ∧
    (accOf hs).index = hs.length % 16 ∧
    (accOf hs).sum = winSum hs ∧
    ∀ i < 16, (accOf hs).samples.getD i 0 = slotVal hs i := by
  induction hs using List.reverseRecOn with
  | nil =>
      refine ⟨by simp [accOf, CircAcc.init], by simp [accOf, CircAcc.init], ?_, ?_⟩
      · simp [accOf, CircAcc.init, winSum]
      · intro i hi
        have hz : slotVal ([] : List α) i = 0 := by simp [slotVal]
        rw [hz]
        show (List.replicate 16 (0 : α)).getD i 0 = 0
        interval_cases i <;> rfl
  | append_singleton hs v ih =>
      obtain ⟨hlen, hidx, hsum, hslot⟩ := ih
      rw [accOf_append]
      set L := hs.length with hL
      have hidx16 : L % 16 < 16 := Nat.mod_lt _ (by norm_num)
      constructor
      · simp [CircAcc.add, hlen]
      constructor
      · simp only [CircAcc.add, hlen, hidx]
        split <;> (simp only [List.length_append, List.length_singleton]; omega)
      constructor
      · -- sum invariant
        simp only [CircAcc.add, hidx, hsum]
        rw [hslot (L % 16) hidx16]
        by_cases hsmall : L < 16
        · have h1 : ¬ (L % 16 < L) := by omega
          rw [slotVal, if_neg (by omega : ¬ L % 16 < hs.length)]
          rw [winSum, winSum]
          have hd1 : hs.length - 16 = 0 := by omega
          have hd2 : (hs ++ [v]).length - 16 = 0 := by simp; omega
          rw [hd1, hd2]
          simp [sub_zero]
        · -- L ≥ 16
          push_neg at hsmall
          have hmem : L % 16 < hs.length := by omega
          rw [slotVal, if_pos hmem]
          have hmod : (L - 1 - L % 16) % 16 = 15 := by omega
          rw [hmod]
          have hpos : L - 1 - 15 = L - 16 := by omega
          rw [hpos]
          rw [winSum, winSum]
          have hd1 : hs.length - 16 = L - 16 := by omega
          have hd2 : (hs ++ [v]).length - 16 = L - 15 := by
            simp only [List.length_append, List.length_singleton]
            omega
          rw [hd1, hd2]
          have hdrop2 : (hs ++ [v]).drop (L - 15) = hs.drop (L - 15) ++ [v] := by
            rw [List.drop_append_of_le_length (by omega)]
          rw [hdrop2, List.sum_append]
          have h16 : L - 16 < hs.length := by omega
          have hcons : hs.drop (L - 16) =
              hs.getD (L - 16) 0 :: hs.drop (L - 15) := by
            rw [List.getD_eq_getElem?_getD, List.getElem?_eq_getElem h16]
            rw [show L - 15 = (L - 16) + 1 by omega]
            exact List.drop_eq_getElem_cons h16
          rw [hcons, List.sum_cons, List.sum_singleton]
          abel
      · -- slot invariant
        intro i hi
        simp only [CircAcc.add, hidx]
        by_cases heq : i = L % 16
        · subst heq
          rw [List.getD_eq_getElem?_getD, List.getElem?_set_self (by omega), Option.getD_some]
          rw [slotVal, if_pos (by simp; omega)]
          have h1 : (hs ++ [v]).length - 1 = L := by simp
          have h2 : (L - (L % 16)) % 16 = 0 := by omega
          rw [h1, h2]
          simp [List.getD_eq_getElem?_getD, List.getElem?_append_right (le_refl L)]
        · rw [List.getD_eq_getElem?_getD, List.getElem?_set_ne (Ne.symm heq),
            ← List.getD_eq_getElem?_getD, hslot i hi]
          rw [slotVal, slotVal]
          by_cases hiL : i < L
          · rw [if_pos hiL, if_pos (by simp; omega)]
            have h1 : (hs ++ [v]).length - 1 = L := by simp
            rw [h1]
            have hmod2 : (L - i) % 16 = (L - 1 - i) % 16 + 1 := by omega
            have hlt : L - 1 - ((L - 1 - i) % 16) < hs.length := by omega
            rw [hmod2]
            have harg : L - ((L - 1 - i) % 16 + 1) = L - 1 - ((L - 1 - i) % 16) := by omega
            rw [harg]
            rw [List.getD_eq_getElem?_getD, List.getD_eq_getElem?_getD,
              List.getElem?_append_left hlt]
          · rw [if_neg hiL]
            have : ¬ i < (hs ++ [v]).length := by simp; omega
            rw [if_neg this]

/-! ## Frame detector (src/src/frame_detector.h, frame_detector.cpp) -/

/-- A tagged time-domain sample (`tagged_sample` of tagged_vector.h). -/
structure TaggedSampleQ where
  sample : ℚ × ℚ
  tag : VectorTag
  deriving DecidableEq, Repr

/-- The threshold test `std::abs(m_corr_acc.sum) / m_power_acc.sum > 0.9`
(`PLATEAU_THRESHOLD`), in exact arithmetic: for positive power the
comparison is squared (`|c| > 0.9·p ↔ 100·|c|² > 81·p²`, both sides
nonnegative); power 0 with nonzero correlation divides to +inf (> 0.9
holds) and 0/0 is NaN (no comparison holds); a negative power makes the
quotient nonpositive (< 0.9). -/
def corrExceeds (c : ℚ × ℚ) (p : ℚ) : Bool :=
  if 0 < p then decide (81 * (p * p) < 100 * cnormSq c)
  else decide (p = 0 ∧ cnormSq c ≠ 0)

/-- The loop-carried members of `frame_detector`: the two accumulators,
`m_plateau_length` and `m_plateau_flag`. -/
structure FDCore where
  corr : CircAcc (ℚ × ℚ)
  power : CircAcc ℚ
  plateau : ℕ
  flag : Bool

/-- Full `frame_detector` state: loop members plus `m_carryover`. -/
structure FDState where
  core : FDCore
  carryover : List (ℚ × ℚ)

/-- The `frame_detector` constructor state: empty size-16 accumulators,
16 zero carryover samples, zero plateau count, flag down. -/
def fd_init : FDState :=
  ⟨⟨CircAcc.init _ 16, CircAcc.init _ 16, 0, false⟩, List.replicate 16 0⟩

/-- The body of the per-sample loop of `frame_detector::work` at index
`x`: fetch the 16-delayed sample (carryover for `x < 16`), add
`input[x]·conj(delayed)` and `|input[x]|²` to the accumulators, compare
the normalized correlation against the threshold, update the plateau
counter and flag, tag `STS_START` when the counter just reached
`STS_PLATEAU_LENGTH = 16`, tag `STS_END` when the comparison fails with
the flag up, and pass the sample through. -/
def fd_body (carry input : List (ℚ × ℚ)) (acc : FDCore × List TaggedSampleQ) (x : ℕ) :
    FDCore × List TaggedSampleQ :=
  let st := acc.1
  let delayed := if x < 16 then carry.getD x 0 else input.getD (x - 16) 0
  let corr2 := st.corr.add (cmul (input.getD x 0) (cconj delayed))
  let pow2 := st.power.add (cnormSq (input.getD x 0))
  if corrExceeds corr2.sum pow2.sum then
    if st.plateau + 1 = 16 then
      (⟨corr2, pow2, st.plateau + 1, true⟩,
       acc.2 ++ [⟨input.getD x 0, VectorTag.STS_START⟩])
    else
      (⟨corr2, pow2, st.plateau + 1, st.flag⟩,
       acc.2 ++ [⟨input.getD x 0, VectorTag.NONE⟩])
  else
    if st.flag then
      (⟨corr2, pow2, 0, false⟩, acc.2 ++ [⟨input.getD x 0, VectorTag.STS_END⟩])
    else
      (⟨corr2, pow2, 0, false⟩, acc.2 ++ [⟨input.getD x 0, VectorTag.NONE⟩])

/-- The sample loop of `frame_detector::work`. -/
def fd_loop (carry input : List (ℚ × ℚ)) (core : FDCore) : FDCore × List TaggedSampleQ :=
  (List.range input.length).foldl (fd_body carry input) (core, [])

/-- `frame_detector::work`: early return on empty input, run the loop,
save the last 16 input samples as the next carryover. -/
def fd_work (st : FDState) (input : List (ℚ × ℚ)) : FDState × List TaggedSampleQ :=
  if input.length = 0 then (st, [])
  else
    let r := fd_loop st.carryover input st.core
    (⟨r.1, input.drop (input.length - 16)⟩, r.2)

/-- Chunked processing from the constructor state: one `fd_work` call per
chunk, state carried across calls, outputs concatenated (the receiver
chain drives one `work` per input chunk). -/
def fd_run (chunks : List (List (ℚ × ℚ))) : FDState × List TaggedSampleQ :=
  chunks.foldl (fun acc c => ((fd_work acc.1 c).1, acc.2 ++ (fd_work acc.1 c).2))
    (fd_init, [])

/-! ## Frame detector reference behaviour (window sums over the stream) -/

/-- The 16-delayed sample at absolute stream position `n` (zero for the
first 16 positions, matching the zero-initialized carryover). -/
def delayedSpec (s : List (ℚ × ℚ)) (n : ℕ) : ℚ × ℚ :=
  if n < 16 then 0 else s.getD (n - 16) 0

/-- The autocorrelation term entering the correlation window at position
`n`: `s[n]·conj(s[n-16])`. -/
def corrTerm (s : List (ℚ × ℚ)) (n : ℕ) : ℚ × ℚ :=
  cmul (s.getD n 0) (cconj (delayedSpec s n))

/-- The power term entering the power window at position `n`: `|s[n]|²`. -/
def powTerm (s : List (ℚ × ℚ)) (n : ℕ) : ℚ := cnormSq (s.getD n 0)

/-- `Σcorr` over the length-16 window ending at position `n`. -/
def corrWindow (s : List (ℚ × ℚ)) (n : ℕ) : ℚ × ℚ :=
  winSum ((List.range (n + 1)).map (corrTerm s))

/-- `Σpower` over the length-16 window ending at position `n`. -/
def powWindow (s : List (ℚ × ℚ)) (n : ℕ) : ℚ :=
  winSum ((List.range (n + 1)).map (powTerm s))

/-- Whether the normalized autocorrelation `c = |Σcorr|/Σpower` of the
length-16 windows exceeds 0.9 at position `n`. -/
def specExceeds (s : List (ℚ × ℚ)) (n : ℕ) : Bool :=
  corrExceeds (corrWindow s n) (powWindow s n)

/-- The plateau counter after processing position `n`. -/
def specPlateau (s : List (ℚ × ℚ)) : ℕ → ℕ
  | 0 => if specExceeds s 0 then 1 else 0
  | n + 1 => if specExceeds s (n + 1) then specPlateau s n + 1 else 0

/-- The in-plateau flag after processing position `n`. -/
def specFlag (s : List (ℚ × ℚ)) : ℕ → Bool
  | 0 => specExceeds s 0 && decide (specPlateau s 0 = 16)
  | n + 1 => specExceeds s (n + 1) && (specFlag s n || decide (specPlateau s (n + 1) = 16))

/-- The plateau counter before position `n` is processed. -/
def plateauAfter (s : List (ℚ × ℚ)) : ℕ → ℕ
  | 0 => 0
  | n + 1 => specPlateau s n

/-- The in-plateau flag before position `n` is processed. -/
def flagAfter (s : List (ℚ × ℚ)) : ℕ → Bool
  | 0 => false
  | n + 1 => specFlag s n

/-- The tag the detector should emit at position `n`. -/
def specTag (s : List (ℚ × ℚ)) (n : ℕ) : VectorTag :=
  if specExceeds s n then
    (if specPlateau s n = 16 then VectorTag.STS_START else VectorTag.NONE)
  else if flagAfter s n then VectorTag.STS_END else VectorTag.NONE

/-- The reference loop state before absolute position `N`. -/
def specCore (s : List (ℚ × ℚ)) (N : ℕ) : FDCore :=
  ⟨accOf ((List.range N).map (corrTerm s)), accOf ((List.range N).map (powTerm s)),
   plateauAfter s N, flagAfter s N⟩

lemma specPlateau_eq (s : List (ℚ × ℚ)) (n : ℕ) :
    specPlateau s n = if specExceeds s n then plateauAfter s n + 1 else 0 := by
  cases n <;> rfl

lemma specFlag_eq (s : List (ℚ × ℚ)) (n : ℕ) :
    specFlag s n =
      (specExceeds s n && (flagAfter s n || decide (specPlateau s n = 16))) := by
  cases n with
  | zero => simp [specFlag, flagAfter]
  | succ m => rfl

/-! ## Frame detector refinement lemmas -/

lemma range_map_snoc {β : Type} (f : ℕ → β) (n : ℕ) :
    (List.range (n + 1)).map f = (List.range n).map f ++ [f n] := by
  rw [List.range_succ, List.map_append, List.map_singleton]

lemma specPlateau_of_exc {s : List (ℚ × ℚ)} {n : ℕ} (he : specExceeds s n = true) :
    specPlateau s n = plateauAfter s n + 1 := by
  rw [specPlateau_eq, if_pos he]

lemma specPlateau_of_nexc {s : List (ℚ × ℚ)} {n : ℕ} (he : specExceeds s n = false) :
    specPlateau s n = 0 := by
  rw [specPlateau_eq, if_neg (by rw [he]; exact Bool.false_ne_true)]

lemma specFlag_of_nexc {s : List (ℚ × ℚ)} {n : ℕ} (he : specExceeds s n = false) :
    specFlag s n = false := by
  rw [specFlag_eq, he, Bool.false_and]

lemma fd_body_step (s carry input : List (ℚ × ℚ)) (N0 x : ℕ)
    (hx : x < input.length)
    (hIn : ∀ y < input.length, input.getD y 0 = s.getD (N0 + y) 0)
    (hCarry : ∀ y < 16, carry.getD y 0 = delayedSpec s (N0 + y))
    (out : List TaggedSampleQ) :
    fd_body carry input (specCore s (N0 + x), out) x =
      (specCore s (N0 + x + 1),
       out ++ [⟨s.getD (N0 + x) 0, specTag s (N0 + x)⟩]) := by
  have hsample : input.getD x 0 = s.getD (N0 + x) 0 := hIn x hx
  have hdelayed : (if x < 16 then carry.getD x 0 else input.getD (x - 16) 0) =
      delayedSpec s (N0 + x) := by
    by_cases h16 : x < 16
    · rw [if_pos h16]
      exact hCarry x h16
    · rw [if_neg h16]
      rw [hIn (x - 16) (by omega)]
      unfold delayedSpec
      rw [if_neg (by omega)]
      congr 1
      omega
  unfold fd_body specCore
  dsimp only
  have hcorr : (accOf ((List.range (N0 + x)).map (corrTerm s))).add
      (cmul (input.getD x 0) (cconj (if x < 16 then carry.getD x 0
        else input.getD (x - 16) 0))) =
      accOf ((List.range (N0 + x + 1)).map (corrTerm s)) := by
    rw [hsample, hdelayed, range_map_snoc, accOf_append]
    rfl
  have hpow : (accOf ((List.range (N0 + x)).map (powTerm s))).add
      (cnormSq (input.getD x 0)) =
      accOf ((List.range (N0 + x + 1)).map (powTerm s)) := by
    rw [hsample, range_map_snoc, accOf_append]
    rfl
  rw [hcorr, hpow]
  have hcsum : (accOf ((List.range (N0 + x + 1)).map (corrTerm s))).sum =
      corrWindow s (N0 + x) :=
    (accOf_inv _).2.2.1
  have hpsum : (accOf ((List.range (N0 + x + 1)).map (powTerm s))).sum =
      powWindow s (N0 + x) :=
    (accOf_inv _).2.2.1
  rw [hcsum, hpsum]
  have hplA : plateauAfter s (N0 + x + 1) = specPlateau s (N0 + x) := rfl
  have hflA : flagAfter s (N0 + x + 1) = specFlag s (N0 + x) := rfl
  cases he : specExceeds s (N0 + x) with
  | true =>
      have he2 : corrExceeds (corrWindow s (N0 + x)) (powWindow s (N0 + x)) = true := he
      rw [if_pos he2]
      by_cases h16 : plateauAfter s (N0 + x) + 1 = 16
      · rw [if_pos h16]
        have hpl16 : specPlateau s (N0 + x) = 16 := by
          rw [specPlateau_of_exc he]; exact h16
        have htag : specTag s (N0 + x) = VectorTag.STS_START := by
          unfold specTag
          rw [if_pos he, if_pos hpl16]
        have hfl : specFlag s (N0 + x) = true := by
          rw [specFlag_eq, he, hpl16]
          simp
        rw [hsample, htag, Prod.mk.injEq, FDCore.mk.injEq]
        exact ⟨⟨rfl, rfl, by rw [hplA, specPlateau_of_exc he], by rw [hflA, hfl]⟩, rfl⟩
      · rw [if_neg h16]
        have hpl16 : ¬ specPlateau s (N0 + x) = 16 := by
          rw [specPlateau_of_exc he]; exact h16
        have htag : specTag s (N0 + x) = VectorTag.NONE := by
          unfold specTag
          rw [if_pos he, if_neg hpl16]
        have hfl : specFlag s (N0 + x) = flagAfter s (N0 + x) := by
          rw [specFlag_eq, he, Bool.true_and, decide_eq_false hpl16, Bool.or_false]
        rw [hsample, htag, Prod.mk.injEq, FDCore.mk.injEq]
        exact ⟨⟨rfl, rfl, by rw [hplA, specPlateau_of_exc he], by rw [hflA, hfl]⟩, rfl⟩
  | false =>
      have he2 : ¬ corrExceeds (corrWindow s (N0 + x)) (powWindow s (N0 + x)) = true := by
        intro hcon
        rw [show corrExceeds (corrWindow s (N0 + x)) (powWindow s (N0 + x)) =
          specExceeds s (N0 + x) from rfl, he] at hcon
        exact Bool.false_ne_true hcon
      rw [if_neg he2]
      have hne : ¬ specExceeds s (N0 + x) = true := by
        rw [he]; exact Bool.false_ne_true
      have hpl0 : specPlateau s (N0 + x) = 0 := specPlateau_of_nexc he
      have hfl0 : specFlag s (N0 + x) = false := specFlag_of_nexc he
      by_cases hf : flagAfter s (N0 + x) = true
      · rw [if_pos hf]
        have htag : specTag s (N0 + x) = VectorTag.STS_END := by
          unfold specTag
          rw [if_neg hne, if_pos hf]
        rw [hsample, htag, Prod.mk.injEq, FDCore.mk.injEq]
        exact ⟨⟨rfl, rfl, by rw [hplA, hpl0], by rw [hflA, hfl0]⟩, rfl⟩
      · rw [if_neg hf]
        have htag : specTag s (N0 + x) = VectorTag.NONE := by
          unfold specTag
          rw [if_neg hne, if_neg hf]
        rw [hsample, htag, Prod.mk.injEq, FDCore.mk.injEq]
        exact ⟨⟨rfl, rfl, by rw [hplA, hpl0], by rw [hflA, hfl0]⟩, rfl⟩

lemma fd_loop_spec (s carry input : List (ℚ × ℚ)) (N0 : ℕ)
    (hIn : ∀ y < input.length, input.getD y 0 = s.getD (N0 + y) 0)
    (hCarry : ∀ y < 16, carry.getD y 0 = delayedSpec s (N0 + y)) :
    ∀ k ≤ input.length,
      (List.range k).foldl (fd_body carry input) (specCore s N0, []) =
        (specCore s (N0 + k),
         (List.range k).map (fun i => ⟨s.getD (N0 + i) 0, specTag s (N0 + i)⟩)) := by
  intro k
  induction k with
  | zero => intro _; simp
  | succ k ih =>
      intro hk
      rw [List.range_succ, List.foldl_append, ih (by omega)]
      simp only [List.foldl_cons, List.foldl_nil]
      rw [fd_body_step s carry input N0 k (by omega) hIn hCarry]
      rw [List.map_append, List.map_singleton]
      rfl

/-- The refinement invariant tying the `frame_detector` block state before
absolute stream position `N` to the reference functions. -/
def FDInv (s : List (ℚ × ℚ)) (N : ℕ) (st : FDState) : Prop :=
  st.core = specCore s N ∧ st.carryover.length = 16 ∧
    ∀ y < 16, st.carryover.getD y 0 = delayedSpec s (N + y)

lemma fd_work_spec (s : List (ℚ × ℚ)) (N0 : ℕ) (input : List (ℚ × ℚ)) (st : FDState)
    (hInv : FDInv s N0 st) (hlen : 16 ≤ input.length)
    (hIn : ∀ y < input.length, input.getD y 0 = s.getD (N0 + y) 0) :
    FDInv s (N0 + input.length) (fd_work st input).1 ∧
    (fd_work st input).2 =
      (List.range input.length).map (fun i => ⟨s.getD (N0 + i) 0, specTag s (N0 + i)⟩) := by
  obtain ⟨hcore, hclen, hcarry⟩ := hInv
  have hne : ¬ input.length = 0 := by omega
  unfold fd_work fd_loop
  rw [if_neg hne, hcore,
    fd_loop_spec s st.carryover input N0 hIn hcarry input.length le_rfl]
  refine ⟨⟨rfl, ?_, ?_⟩, rfl⟩
  · rw [List.length_drop]
    omega
  · intro y hy
    rw [List.getD_eq_getElem?_getD, List.getElem?_drop, ← List.getD_eq_getElem?_getD]
    rw [hIn (input.length - 16 + y) (by omega)]
    unfold delayedSpec
    rw [if_neg (by omega)]
    congr 1
    omega

lemma fd_run_go (s : List (ℚ × ℚ)) :
    ∀ (chunks : List (List (ℚ × ℚ))) (N0 : ℕ) (st : FDState) (out : List TaggedSampleQ),
      FDInv s N0 st →
      (∀ c ∈ chunks, 16 ≤ c.length) →
      (∀ y < (chunks.join).length, (chunks.join).getD y 0 = s.getD (N0 + y) 0) →
      ∃ st2,
        chunks.foldl (fun acc c => ((fd_work acc.1 c).1, acc.2 ++ (fd_work acc.1 c).2))
            (st, out) =
          (st2, out ++ (List.range (chunks.join).length).map
            (fun i => ⟨s.getD (N0 + i) 0, specTag s (N0 + i)⟩)) ∧
        FDInv s (N0 + (chunks.join).length) st2 := by
  intro chunks
  induction chunks with
  | nil =>
      intro N0 st out hInv _ _
      exact ⟨st, by simp, by simpa using hInv⟩
  | cons c cs ih =>
      intro N0 st out hInv hlen hIn
      have hc : 16 ≤ c.length := hlen c (by simp)
      have hjoin : ((c :: cs).join : List (ℚ × ℚ)) = c ++ cs.join := by
        simp [List.join]
      have hjlen : ((c :: cs).join).length = c.length + (cs.join).length := by
        rw [hjoin, List.length_append]
      have hInC : ∀ y < c.length, c.getD y 0 = s.getD (N0 + y) 0 := by
        intro y hy
        have h1 := hIn y (by omega)
        rw [hjoin] at h1
        rw [List.getD_eq_getElem?_getD, ← @List.getElem?_append_left _ c cs.join y hy,
          ← List.getD_eq_getElem?_getD]
        exact h1
      have hstep := fd_work_spec s N0 c st hInv hc hInC
      have hInCs : ∀ y < (cs.join).length,
          (cs.join).getD y 0 = s.getD (N0 + c.length + y) 0 := by
        intro y hy
        have hcy : c.length + y < ((c :: cs).join).length := by omega
        have h1 := hIn (c.length + y) hcy
        rw [hjoin, List.getD_eq_getElem?_getD,
          List.getElem?_append_right (by omega : c.length ≤ c.length + y),
          Nat.add_sub_cancel_left, ← List.getD_eq_getElem?_getD] at h1
        rw [h1, ← Nat.add_assoc]
      obtain ⟨st2, hfold, hinv2⟩ :=
        ih (N0 + c.length) (fd_work st c).1 (out ++ (fd_work st c).2) hstep.1
          (fun d hd => hlen d (by simp [hd])) hInCs
      have hfun : List.map
          ((fun i => (⟨s.getD (N0 + i) 0, specTag s (N0 + i)⟩ : TaggedSampleQ)) ∘
            fun x => c.length + x) (List.range (cs.join).length) =
          List.map (fun i => (⟨s.getD (N0 + c.length + i) 0,
            specTag s (N0 + c.length + i)⟩ : TaggedSampleQ))
            (List.range (cs.join).length) := by
        apply List.map_congr_left
        intro i _
        simp only [Function.comp_apply]
        rw [Nat.add_assoc]
      refine ⟨st2, ?_, ?_⟩
      · rw [List.foldl_cons]
        dsimp only
        rw [hfold, hstep.2, hjlen, List.range_add, List.map_append, List.map_map,
          List.append_assoc, hfun]
      · rw [hjlen, ← Nat.add_assoc]
        exact hinv2

lemma specTag_start_iff (s : List (ℚ × ℚ)) (n : ℕ) :
    specTag s n = VectorTag.STS_START ↔
      (specExceeds s n = true ∧ specPlateau s n = 16) := by
  unfold specTag
  split_ifs with h1 h2 h3 <;> simp_all

lemma specTag_end_iff (s : List (ℚ × ℚ)) (n : ℕ) :
    specTag s n = VectorTag.STS_END ↔
      (specExceeds s n = false ∧ flagAfter s n = true) := by
  unfold specTag
  split_ifs with h1 h2 h3 <;> simp_all

/-- Claim C8: processing any chunked sample stream (chunks of at least 16
samples, the block's carryover width) through `frame_detector::work` from
the constructor state passes every sample through unchanged, tags a sample
`STS_START` exactly when the normalized window autocorrelation
`c = |Σcorr|/Σpower` exceeds 0.9 there and the plateau counter thereby
reaches 16 for the first time in the plateau, and tags a sample `STS_END`
exactly when `c` fails to exceed 0.9 while the in-plateau flag is set. -/
theorem claim_C8 (chunks : List (List (ℚ × ℚ))) (hc : ∀ c ∈ chunks, 16 ≤ c.length) :
    ((fd_run chunks).2).length = (chunks.join).length ∧
    ∀ n < (chunks.join).length,
      ((fd_run chunks).2.getD n ⟨0, VectorTag.NONE⟩).sample = (chunks.join).getD n 0 ∧
      (((fd_run chunks).2.getD n ⟨0, VectorTag.NONE⟩).tag = VectorTag.STS_START ↔
        (specExceeds (chunks.join) n = true ∧ specPlateau (chunks.join) n = 16)) ∧
      (((fd_run chunks).2.getD n ⟨0, VectorTag.NONE⟩).tag = VectorTag.STS_END ↔
        (specExceeds (chunks.join) n = false ∧ flagAfter (chunks.join) n = true)) := by
  have hInv0 : FDInv (chunks.join) 0 fd_init := by
    refine ⟨rfl, by simp [fd_init], ?_⟩
    intro y hy
    unfold delayedSpec
    rw [if_pos (by omega)]
    show (List.replicate 16 ((0 : ℚ), (0 : ℚ))).getD y 0 = 0
    interval_cases y <;> rfl
  obtain ⟨st2, hfold, -⟩ :=
    fd_run_go (chunks.join) chunks 0 fd_init [] hInv0 hc
      (fun y _ => by rw [Nat.zero_add])
  have hrun : (fd_run chunks).2 =
      (List.range (chunks.join).length).map
        (fun i => ⟨(chunks.join).getD (0 + i) 0, specTag (chunks.join) (0 + i)⟩) := by
    unfold fd_run
    rw [hfold]
    simp
  have hzero : ∀ i : ℕ, (0 : ℕ) + i = i := fun i => Nat.zero_add i
  constructor
  · rw [hrun, List.length_map, List.length_range]
  · intro n hn
    have hgetD : (fd_run chunks).2.getD n ⟨0, VectorTag.NONE⟩ =
        ⟨(chunks.join).getD n 0, specTag (chunks.join) n⟩ := by
      rw [hrun, List.getD_eq_getElem?_getD, List.getElem?_map, List.getElem?_range hn]
      simp [hzero n]
    rw [hgetD]
    exact ⟨rfl, specTag_start_iff _ n, specTag_end_iff _ n⟩

/-- Claim C8 witness: the characterization applied to one concrete
16-sample all-zero chunk. -/
theorem claim_C8_witness :
    (∀ c ∈ [List.replicate 16 ((0 : ℚ), (0 : ℚ))], 16 ≤ c.length) ∧
    (((fd_run [List.replicate 16 ((0 : ℚ), (0 : ℚ))]).2).length =
      ([List.replicate 16 ((0 : ℚ), (0 : ℚ))].join).length ∧
    ∀ n < ([List.replicate 16 ((0 : ℚ), (0 : ℚ))].join).length,
      ((fd_run [List.replicate 16 ((0 : ℚ), (0 : ℚ))]).2.getD n ⟨0, VectorTag.NONE⟩).sample =
        ([List.replicate 16 ((0 : ℚ), (0 : ℚ))].join).getD n 0 ∧
      (((fd_run [List.replicate 16 ((0 : ℚ), (0 : ℚ))]).2.getD n
          ⟨0, VectorTag.NONE⟩).tag = VectorTag.STS_START ↔
        (specExceeds ([List.replicate 16 ((0 : ℚ), (0 : ℚ))].join) n = true ∧
         specPlateau ([List.replicate 16 ((0 : ℚ), (0 : ℚ))].join) n = 16)) ∧
      (((fd_run [List.replicate 16 ((0 : ℚ), (0 : ℚ))]).2.getD n
          ⟨0, VectorTag.NONE⟩).tag = VectorTag.STS_END ↔
        (specExceeds ([List.replicate 16 ((0 : ℚ), (0 : ℚ))].join) n = false ∧
         flagAfter ([List.replicate 16 ((0 : ℚ), (0 : ℚ))].join) n = true))) :=
  ⟨by intro c hcm; rw [List.mem_singleton] at hcm; subst hcm; simp,
   claim_C8 [List.replicate 16 ((0 : ℚ), (0 : ℚ))]
     (by intro c hcm; rw [List.mem_singleton] at hcm; subst hcm; simp)⟩

/-! ## Access-checked frame detector work (claim C9) -/

/-- `frame_detector::work` with every buffer access checked: each indexed
read returns `none` when out of bounds.  The final carryover `memcpy`
reads from `input_buffer[size - STS_LENGTH]` with an unsigned size, so a
non-empty input shorter than 16 makes that source index wrap far out of
bounds — modelled by the trailing length check. -/
def fd_workChecked (st : FDState) (input : List (ℚ × ℚ)) :
    Option (FDState × List TaggedSampleQ) :=
  if input.length = 0 then some (st, [])
  else do
    let r ← (List.range input.length).foldlM
      (fun (acc : FDCore × List TaggedSampleQ) x => do
        let cur ← input[x]?
        let delayed ← if x < 16 then st.carryover[x]? else input[x - 16]?
        let c := acc.1
        let corr2 := c.corr.add (cmul cur (cconj delayed))
        let pow2 := c.power.add (cnormSq cur)
        if corrExceeds corr2.sum pow2.sum then
          if c.plateau + 1 = 16 then
            pure (⟨corr2, pow2, c.plateau + 1, true⟩,
              acc.2 ++ [⟨cur, VectorTag.STS_START⟩])
          else
            pure (⟨corr2, pow2, c.plateau + 1, c.flag⟩,
              acc.2 ++ [⟨cur, VectorTag.NONE⟩])
        else
          if c.flag then
            pure (⟨corr2, pow2, 0, false⟩, acc.2 ++ [⟨cur, VectorTag.STS_END⟩])
          else
            pure (⟨corr2, pow2, 0, false⟩, acc.2 ++ [⟨cur, VectorTag.NONE⟩]))
      (st.core, [])
    if 16 ≤ input.length then
      some (⟨r.1, input.drop (input.length - 16)⟩, r.2)
    else none

/-! ## Access-checked timing sync work (src/src/timing_sync.cpp, claim C9)

The transcendental pieces of `timing_sync::work` — the
`LTS_TIME_DOMAIN_CONJ` table of preamble.h, `std::arg`, `cos`, `sin` and
the `±2π` wrap loops — do not influence which buffer indices are accessed,
so they are taken as parameters (`ltsConj`, `argF`, `cosF`, `sinF`,
`wrapF`); the access-safety theorems below hold for every instantiation. -/

/-- A detected LTS correlation peak: the exact ingredients of the
normalized correlation `corr_norm = |corr| / power` (kept unevaluated, a
square root does not exist in ℚ) and the position `p`. -/
structure TSPeak where
  corr : ℚ × ℚ
  power : ℚ
  pos : ℕ
  deriving DecidableEq, Repr

/-- Ordering of two peaks as `std::sort` on `std::pair<double,int>`
compares them: lexicographically by `corr_norm = |corr|/power` (squared
cross-multiplied comparison for nonzero powers; a zero power with nonzero
correlation is `+inf`; 0/0 is NaN and compares false), then by position. -/
def peakNormLt (a b : TSPeak) : Bool :=
  if a.power = 0 then false
  else if b.power = 0 then decide (cnormSq b.corr ≠ 0)
  else decide (cnormSq a.corr * (b.power * b.power) < cnormSq b.corr * (a.power * a.power))

/-- Equality of the `corr_norm` keys under the same semantics. -/
def peakNormEq (a b : TSPeak) : Bool :=
  if a.power = 0 then decide (b.power = 0 ∧ cnormSq a.corr ≠ 0 ∧ cnormSq b.corr ≠ 0)
  else if b.power = 0 then false
  else decide (cnormSq a.corr * (b.power * b.power) = cnormSq b.corr * (a.power * a.power))

/-- The `std::pair` order used by `std::sort(peaks.begin(), peaks.end())`. -/
def peakLe (a b : TSPeak) : Prop :=
  (peakNormLt a b || (peakNormEq a b && decide (a.pos ≤ b.pos))) = true

instance : DecidableRel peakLe := fun a b =>
  inferInstanceAs (Decidable ((peakNormLt a b || (peakNormEq a b && decide (a.pos ≤ b.pos))) = true))

/-- The LTS cross-correlation scan of `timing_sync::work`: for each
position `p` in `[x, x + CARRYOVER_LENGTH - LTS_LENGTH)` accumulate
`corr += input[p+s] * LTS_TIME_DOMAIN_CONJ[s]` and
`power += |input[p+s]|²` over `s < 64`, and collect the positions whose
normalized correlation exceeds `LTS_CORR_THRESHOLD = 0.9`. -/
def peakScan (ltsConj : ℕ → ℚ × ℚ) (buf : List TaggedSampleQ) (x : ℕ) :
    Option (List TSPeak) :=
  (List.range' x (160 - 64)).foldlM
    (fun peaks p => do
      let r ← (List.range 64).foldlM
        (fun (a : (ℚ × ℚ) × ℚ) s => do
          let e ← buf[p + s]?
          pure (a.1 + cmul e.sample (ltsConj s), a.2 + cnormSq e.sample))
        ((0, 0), 0)
      if corrExceeds r.1 r.2 then pure (peaks ++ [⟨r.1, r.2, p⟩])
      else pure peaks)
    []

/-- The per-`x` loop body of `timing_sync::work` over the working buffer
(carryover ++ input): on an `STS_END` tag, scan for LTS peaks, sort them
descending (`std::sort` then `reverse`), compare the top peak against the
first five (the `jump = 5` double loop runs its outer iteration only for
`s = 0`) looking for a pair of positions exactly 64 apart; on a find with
a nonnegative `lts_offset = min(pair) - 32`, tag `LTS1`/`LTS2`, run the
(empty) CFO loop `for(k = LTS1; k < LTS1; k++)`, set the phase offset to
`arg(acc)/64` and seed the phase accumulator from the last LTS sample.
Afterwards (every `x`) advance and wrap the phase accumulator and rotate
the sample by `(cos, sin)` of it. -/
def ts_body (ltsConj : ℕ → ℚ × ℚ) (argF : ℚ × ℚ → ℚ) (cosF sinF : ℚ → ℚ)
    (wrapF : ℚ → ℚ) (acc : List TaggedSampleQ × ℚ × ℚ) (x : ℕ) :
    Option (List TaggedSampleQ × ℚ × ℚ) := do
  let buf := acc.1
  let phOff := acc.2.1
  let phAcc := acc.2.2
  let cur ← buf[x]?
  let r2 ←
    if cur.tag = VectorTag.STS_END then do
      let peaks ← peakScan ltsConj buf x
      let sorted := (List.insertionSort peakLe peaks).reverse
      match sorted[0]? with
      | none => pure (buf, phOff, phAcc)
      | some p0 =>
          match (sorted.take 5).find?
              (fun q => ((p0.pos : ℤ) - (q.pos : ℤ)).natAbs = 64) with
          | none => pure (buf, phOff, phAcc)
          | some q =>
              if ((min p0.pos q.pos : ℕ) : ℤ) - 32 < 0 then
                pure (buf, phOff, phAcc)
              else do
                let offN := min p0.pos q.pos - 32
                let e1 ← buf[offN + 24]?
                let buf1 := buf.set (offN + 24) ⟨e1.sample, VectorTag.LTS1⟩
                let e2 ← buf1[offN + 24 + 64]?
                let buf2 := buf1.set (offN + 24 + 64) ⟨e2.sample, VectorTag.LTS2⟩
                let acc0 := (List.range' VectorTag.LTS1.toNat
                    (VectorTag.LTS1.toNat - VectorTag.LTS1.toNat)).foldl
                  (fun (a : ℚ × ℚ) k =>
                    a + cmul ((buf2.getD k ⟨0, VectorTag.NONE⟩).sample)
                      (cconj ((buf2.getD (k + 64) ⟨0, VectorTag.NONE⟩).sample)))
                  0
                let eSeed ← buf2[offN + 32 + 64 * 2 - 1]?
                pure (buf2, argF acc0 / 64, argF (cmul eSeed.sample (ltsConj 63)))
    else pure (buf, phOff, phAcc)
  let phAcc3 := wrapF (r2.2.2 + r2.2.1)
  let cur2 ← r2.1[x]?
  let buf3 := r2.1.set x ⟨cmul cur2.sample (cosF phAcc3, sinF phAcc3), cur2.tag⟩
  pure (buf3, r2.2.1, phAcc3)

/-- `timing_sync` block state: `m_phase_offset`, `m_phase_acc`,
`m_carryover` (160 tagged samples). -/
structure TSState where
  phase_offset : ℚ
  phase_acc : ℚ
  carryover : List TaggedSampleQ

/-- `timing_sync::work` with every buffer access checked: empty input
returns immediately; a non-empty input of at most `CARRYOVER_LENGTH = 160`
samples fails the `assert(input_buffer.size() > CARRYOVER_LENGTH)`
(modelled `none`); otherwise the carryover is prepended, the loop runs
over the first `input.length` positions, the first `input.length` working
samples are copied out and the following 160 become the new carryover
(both `memcpy`s checked by the final length test). -/
def ts_work (ltsConj : ℕ → ℚ × ℚ) (argF : ℚ × ℚ → ℚ) (cosF sinF : ℚ → ℚ)
    (wrapF : ℚ → ℚ) (st : TSState) (inp : List TaggedSampleQ) :
    Option (TSState × List TaggedSampleQ) :=
  if inp.length = 0 then some (st, [])
  else if ¬ 160 < inp.length then none
  else do
    let r ← (List.range inp.length).foldlM (ts_body ltsConj argF cosF sinF wrapF)
      (st.carryover ++ inp, st.phase_offset, st.phase_acc)
    if r.1.length = inp.length + 160 then
      some (⟨r.2.1, r.2.2, r.1.drop inp.length⟩, r.1.take inp.length)
    else none


/-- Success-with-invariant for `Option`-monadic folds: if from every state
satisfying `P` each list element's step succeeds and preserves `P`, the
whole fold succeeds and its result satisfies `P`. -/
lemma foldlM_some_inv {α β : Type} (P : β → Prop) (f : β → α → Option β)
    (l : List α) (b : β) (hb : P b)
    (hf : ∀ c, P c → ∀ a ∈ l, ∃ d, f c a = some d ∧ P d) :
    ∃ r, l.foldlM f b = some r ∧ P r := by
  induction l generalizing b with
  | nil => exact ⟨b, rfl, hb⟩
  | cons a t ih =>
      obtain ⟨d, hd, hPd⟩ := hf b hb a (by simp)
      obtain ⟨r, hr, hPr⟩ := ih d hPd (fun c hc a2 ha2 => hf c hc a2 (by simp [ha2]))
      refine ⟨r, ?_, hPr⟩
      rw [List.foldlM_cons, hd]
      simpa using hr

/-- Every per-sample step of the checked frame-detector loop succeeds when
the carryover ring holds its 16 samples. -/
lemma fd_loop_some (st : FDState) (input : List (ℚ × ℚ))
    (hco : st.carryover.length = 16) :
    ∃ r, (List.range input.length).foldlM
      (fun (acc : FDCore × List TaggedSampleQ) x => do
        let cur ← input[x]?
        let delayed ← if x < 16 then st.carryover[x]? else input[x - 16]?
        let c := acc.1
        let corr2 := c.corr.add (cmul cur (cconj delayed))
        let pow2 := c.power.add (cnormSq cur)
        if corrExceeds corr2.sum pow2.sum then
          if c.plateau + 1 = 16 then
            pure (⟨corr2, pow2, c.plateau + 1, true⟩,
              acc.2 ++ [⟨cur, VectorTag.STS_START⟩])
          else
            pure (⟨corr2, pow2, c.plateau + 1, c.flag⟩,
              acc.2 ++ [⟨cur, VectorTag.NONE⟩])
        else
          if c.flag then
            pure (⟨corr2, pow2, 0, false⟩, acc.2 ++ [⟨cur, VectorTag.STS_END⟩])
          else
            pure (⟨corr2, pow2, 0, false⟩, acc.2 ++ [⟨cur, VectorTag.NONE⟩]))
      (st.core, []) = some r := by
  refine Exists.imp (fun r h => h.1)
    (foldlM_some_inv (fun _ => True) _ (List.range input.length) (st.core, []) trivial ?_)
  intro c _ x hx
  rw [List.mem_range] at hx
  have hcur := List.getElem?_eq_getElem hx
  simp only [and_true, ← Option.isSome_iff_exists]
  by_cases h16 : x < 16
  · have hxc : x < st.carryover.length := by omega
    have hd := List.getElem?_eq_getElem hxc
    rw [hcur]
    simp only [Option.bind_eq_bind, Option.some_bind, if_pos h16, hd]
    split_ifs <;> rfl
  · have hxi : x - 16 < input.length := by omega
    have hd := List.getElem?_eq_getElem hxi
    rw [hcur]
    simp only [Option.bind_eq_bind, Option.some_bind, if_neg h16, hd]
    split_ifs <;> rfl

/-- A non-empty input of fewer than `STS_LENGTH = 16` samples makes the
final carryover `memcpy` of `frame_detector::work` read out of bounds. -/
lemma fd_work_none (st : FDState) (input : List (ℚ × ℚ))
    (hco : st.carryover.length = 16) (h0 : 0 < input.length)
    (h16 : input.length < 16) :
    fd_workChecked st input = none := by
  obtain ⟨r, hr⟩ := fd_loop_some st input hco
  unfold fd_workChecked
  rw [if_neg (by omega), hr]
  simp only [Option.bind_eq_bind, Option.some_bind]
  rw [if_neg (by omega)]

/-- With the 16-sample carryover in place and a chunk of at least 16
samples, every access of `frame_detector::work` is in bounds. -/
lemma fd_work_isSome (st : FDState) (input : List (ℚ × ℚ))
    (hco : st.carryover.length = 16) (h16 : 16 ≤ input.length) :
    (fd_workChecked st input).isSome := by
  obtain ⟨r, hr⟩ := fd_loop_some st input hco
  unfold fd_workChecked
  rw [if_neg (by omega), hr]
  simp only [Option.bind_eq_bind, Option.some_bind]
  rw [if_pos h16]
  rfl

/-- The LTS peak scan succeeds when the buffer extends 160 samples past
`x`, and every collected peak position lies in `[x, x + 96)`. -/
lemma peakScan_spec (ltsConj : ℕ → ℚ × ℚ) (buf : List TaggedSampleQ) (x : ℕ)
    (hlen : x + 160 ≤ buf.length) :
    ∃ peaks, peakScan ltsConj buf x = some peaks ∧
      ∀ pk ∈ peaks, x ≤ pk.pos ∧ pk.pos < x + 96 := by
  unfold peakScan
  refine foldlM_some_inv _ _ _ _ (by simp) ?_
  intro c hc p hp
  rw [List.mem_range'_1] at hp
  have hinner : ∃ r, (List.range 64).foldlM
      (fun (a : (ℚ × ℚ) × ℚ) s => do
        let e ← buf[p + s]?
        pure (a.1 + cmul e.sample (ltsConj s), a.2 + cnormSq e.sample))
      ((0, 0), 0) = some r := by
    refine Exists.imp (fun r h => h.1)
      (foldlM_some_inv (fun _ => True) _ (List.range 64) ((0, 0), 0) trivial ?_)
    intro a _ s hs
    rw [List.mem_range] at hs
    have hps : p + s < buf.length := by omega
    simp only [and_true, ← Option.isSome_iff_exists]
    rw [List.getElem?_eq_getElem hps]
    rfl
  obtain ⟨r, hr⟩ := hinner
  rw [hr]
  simp only [Option.bind_eq_bind, Option.some_bind]
  by_cases hex : corrExceeds r.1 r.2
  · rw [if_pos hex]
    refine ⟨c ++ [⟨r.1, r.2, p⟩], rfl, ?_⟩
    intro pk hpk
    rcases List.mem_append.mp hpk with h | h
    · exact hc pk h
    · rw [List.mem_singleton] at h
      subst h
      exact ⟨hp.1, hp.2⟩
  · rw [if_neg hex]
    exact ⟨c, rfl, hc⟩

/-- Every per-sample step of the checked timing-sync loop succeeds on a
working buffer of `n + 160` samples (for `x < n`) and preserves that
length. -/
lemma ts_body_spec (ltsConj : ℕ → ℚ × ℚ) (argF : ℚ × ℚ → ℚ)
    (cosF sinF wrapF : ℚ → ℚ) {n x : ℕ} (hx : x < n)
    (acc : List TaggedSampleQ × ℚ × ℚ) (hlen : acc.1.length = n + 160) :
    ∃ r, ts_body ltsConj argF cosF sinF wrapF acc x = some r ∧
      r.1.length = n + 160 := by
  obtain ⟨buf, phOff, phAcc⟩ := acc
  simp only at hlen
  have hxb : x < buf.length := by omega
  unfold ts_body
  dsimp only
  rw [List.getElem?_eq_getElem hxb]
  simp only [Option.bind_eq_bind, Option.some_bind]
  by_cases htag : buf[x].tag = VectorTag.STS_END
  · rw [if_pos htag]
    obtain ⟨peaks, hpk, hmem⟩ := peakScan_spec ltsConj buf x (by omega)
    rw [hpk]
    simp only [Option.bind_eq_bind, Option.some_bind]
    split
    · simp only [Option.pure_def, Option.bind_eq_bind, Option.some_bind]
      rw [List.getElem?_eq_getElem hxb]
      simp only [Option.some_bind]
      refine ⟨_, rfl, ?_⟩
      simp [hlen]
    · rename_i p0 hp0
      split
      · simp only [Option.pure_def, Option.bind_eq_bind, Option.some_bind]
        rw [List.getElem?_eq_getElem hxb]
        simp only [Option.some_bind]
        refine ⟨_, rfl, ?_⟩
        simp [hlen]
      · rename_i q hq
        have hp0p : p0 ∈ peaks := by
          have h1 := List.getElem?_mem hp0
          rw [List.mem_reverse] at h1
          exact (List.perm_insertionSort peakLe peaks).mem_iff.mp h1
        have hqp : q ∈ peaks := by
          have h1 := List.mem_of_mem_take (List.mem_of_find?_eq_some hq)
          rw [List.mem_reverse] at h1
          exact (List.perm_insertionSort peakLe peaks).mem_iff.mp h1
        have h64b := List.find?_some hq
        simp only [decide_eq_true_eq] at h64b
        obtain ⟨hp0a, hp0b⟩ := hmem p0 hp0p
        obtain ⟨hqa, hqb⟩ := hmem q hqp
        split
        · simp only [Option.pure_def, Option.bind_eq_bind, Option.some_bind]
          rw [List.getElem?_eq_getElem hxb]
          simp only [Option.some_bind]
          refine ⟨_, rfl, ?_⟩
          simp [hlen]
        · rename_i hoffn
          have hmin : 32 ≤ min p0.pos q.pos := by omega
          have hminx : min p0.pos q.pos < x + 32 := by omega
          obtain ⟨e1, he1⟩ : ∃ e, buf[min p0.pos q.pos - 32 + 24]? = some e :=
            ⟨_, List.getElem?_eq_getElem (by omega)⟩
          rw [he1]
          simp only [Option.bind_eq_bind, Option.some_bind]
          generalize hb1 : buf.set (min p0.pos q.pos - 32 + 24)
            (⟨e1.sample, VectorTag.LTS1⟩ : TaggedSampleQ) = b1
          have hb1l : b1.length = n + 160 := by rw [← hb1]; simp [hlen]
          obtain ⟨e2, he2⟩ : ∃ e, b1[min p0.pos q.pos - 32 + 24 + 64]? = some e :=
            ⟨_, List.getElem?_eq_getElem (by omega)⟩
          rw [he2]
          simp only [Option.bind_eq_bind, Option.some_bind]
          generalize hb2 : b1.set (min p0.pos q.pos - 32 + 24 + 64)
            (⟨e2.sample, VectorTag.LTS2⟩ : TaggedSampleQ) = b2
          have hb2l : b2.length = n + 160 := by rw [← hb2]; simp [hb1l]
          obtain ⟨eS, heS⟩ : ∃ e, b2[min p0.pos q.pos - 32 + 32 + 64 * 2 - 1]? = some e :=
            ⟨_, List.getElem?_eq_getElem (by omega)⟩
          rw [heS]
          simp only [Option.pure_def, Option.bind_eq_bind, Option.some_bind]
          obtain ⟨c2, hc2⟩ : ∃ e, b2[x]? = some e :=
            ⟨_, List.getElem?_eq_getElem (by omega)⟩
          rw [hc2]
          simp only [Option.some_bind]
          refine ⟨_, rfl, ?_⟩
          simp [hb2l]
  · rw [if_neg htag]
    simp only [Option.pure_def, Option.bind_eq_bind, Option.some_bind]
    rw [List.getElem?_eq_getElem hxb]
    simp only [Option.some_bind]
    refine ⟨_, rfl, ?_⟩
    simp [hlen]

/-- A non-empty input of at most `CARRYOVER_LENGTH = 160` samples fails
the size assertion of `timing_sync::work`. -/
lemma ts_work_none (ltsConj : ℕ → ℚ × ℚ) (argF : ℚ × ℚ → ℚ)
    (cosF sinF wrapF : ℚ → ℚ) (st : TSState) (inp : List TaggedSampleQ)
    (h0 : 0 < inp.length) (h160 : inp.length ≤ 160) :
    ts_work ltsConj argF cosF sinF wrapF st inp = none := by
  unfold ts_work
  rw [if_neg (by omega), if_pos (by omega)]

/-- With the 160-sample carryover in place and a chunk of more than 160
samples, every access of `timing_sync::work` is in bounds, for every
instantiation of the transcendental helpers. -/
lemma ts_work_isSome (ltsConj : ℕ → ℚ × ℚ) (argF : ℚ × ℚ → ℚ)
    (cosF sinF wrapF : ℚ → ℚ) (st : TSState) (inp : List TaggedSampleQ)
    (hco : st.carryover.length = 160) (h160 : 160 < inp.length) :
    (ts_work ltsConj argF cosF sinF wrapF st inp).isSome := by
  unfold ts_work
  rw [if_neg (by omega), if_neg (not_not_intro h160)]
  obtain ⟨r, hr, hrlen⟩ := foldlM_some_inv
    (fun a : List TaggedSampleQ × ℚ × ℚ => a.1.length = inp.length + 160)
    (ts_body ltsConj argF cosF sinF wrapF) (List.range inp.length)
    (st.carryover ++ inp, st.phase_offset, st.phase_acc)
    (by show (st.carryover ++ inp).length = inp.length + 160
        rw [List.length_append, hco]; omega)
    (fun c hc a ha => ts_body_spec ltsConj argF cosF sinF wrapF
      (List.mem_range.mp ha) c hc)
  rw [hr]
  simp only [Option.bind_eq_bind, Option.some_bind]
  rw [if_pos hrlen]
  rfl

/-- C9: a chunk of at least 161 samples is an undocumented precondition of
the receive chain on non-empty input: `timing_sync::work` asserts
`input_buffer.size() > 160` (any non-empty chunk of at most 160 samples
fails, modelled `none`), and `frame_detector::work` copies its carryover
from `input_buffer[size - 16]`, out of bounds for any non-empty chunk of
fewer than 16 samples (modelled `none`); with the blocks' carryover
buffers at their constructed sizes (160 resp. 16) and chunks above the
bounds, every buffer access in both work functions is in bounds (the
checked embeddings succeed), for every instantiation of the transcendental
helpers of `timing_sync`. -/
theorem claim_C9 (ltsConj : ℕ → ℚ × ℚ) (argF : ℚ × ℚ → ℚ)
    (cosF sinF wrapF : ℚ → ℚ) (ts : TSState) (tsInp : List TaggedSampleQ)
    (fs : FDState) (fdInp : List (ℚ × ℚ))
    (hts : ts.carryover.length = 160) (hfd : fs.carryover.length = 16) :
    (0 < tsInp.length → tsInp.length ≤ 160 →
      ts_work ltsConj argF cosF sinF wrapF ts tsInp = none) ∧
    (160 < tsInp.length →
      (ts_work ltsConj argF cosF sinF wrapF ts tsInp).isSome) ∧
    (0 < fdInp.length → fdInp.length < 16 → fd_workChecked fs fdInp = none) ∧
    (16 ≤ fdInp.length → (fd_workChecked fs fdInp).isSome) :=
  ⟨fun h0 h1 => ts_work_none ltsConj argF cosF sinF wrapF ts tsInp h0 h1,
   fun h => ts_work_isSome ltsConj argF cosF sinF wrapF ts tsInp hts h,
   fun h0 h1 => fd_work_none fs fdInp hfd h0 h1,
   fun h => fd_work_isSome fs fdInp hfd h⟩

/-- C9 witness: concrete chunks on the constructor states — a 100-sample
chunk kills the timing-sync assertion and a 161-sample chunk is processed
in bounds; an 8-sample chunk drives the frame-detector carryover copy out
of bounds and a 16-sample chunk is processed in bounds. -/
theorem claim_C9_witness :
    ts_work (fun _ => (0, 0)) (fun _ => 0) (fun _ => 1) (fun _ => 0)
      (fun q => q) ⟨0, 0, List.replicate 160 ⟨0, VectorTag.NONE⟩⟩
      (List.replicate 100 ⟨0, VectorTag.NONE⟩) = none ∧
    (ts_work (fun _ => (0, 0)) (fun _ => 0) (fun _ => 1) (fun _ => 0)
      (fun q => q) ⟨0, 0, List.replicate 160 ⟨0, VectorTag.NONE⟩⟩
      (List.replicate 161 ⟨0, VectorTag.NONE⟩)).isSome ∧
    fd_workChecked ⟨fd_init.core, List.replicate 16 0⟩ (List.replicate 8 0) = none ∧
    (fd_workChecked ⟨fd_init.core, List.replicate 16 0⟩
      (List.replicate 16 0)).isSome := by
  refine ⟨?_, ?_, ?_, ?_⟩
  · exact (claim_C9 (fun _ => (0, 0)) (fun _ => 0) (fun _ => 1) (fun _ => 0)
      (fun q => q) ⟨0, 0, List.replicate 160 ⟨0, VectorTag.NONE⟩⟩
      (List.replicate 100 ⟨0, VectorTag.NONE⟩) ⟨fd_init.core, List.replicate 16 0⟩
      (List.replicate 8 0) (by simp) (by simp)).1 (by simp) (by simp)
  · exact (claim_C9 (fun _ => (0, 0)) (fun _ => 0) (fun _ => 1) (fun _ => 0)
      (fun q => q) ⟨0, 0, List.replicate 160 ⟨0, VectorTag.NONE⟩⟩
      (List.replicate 161 ⟨0, VectorTag.NONE⟩) ⟨fd_init.core, List.replicate 16 0⟩
      (List.replicate 8 0) (by simp) (by simp)).2.1 (by simp)
  · exact (claim_C9 (fun _ => (0, 0)) (fun _ => 0) (fun _ => 1) (fun _ => 0)
      (fun q => q) ⟨0, 0, List.replicate 160 ⟨0, VectorTag.NONE⟩⟩
      (List.replicate 100 ⟨0, VectorTag.NONE⟩) ⟨fd_init.core, List.replicate 16 0⟩
      (List.replicate 8 0) (by simp) (by simp)).2.2.1 (by simp) (by simp)
  · exact (claim_C9 (fun _ => (0, 0)) (fun _ => 0) (fun _ => 1) (fun _ => 0)
      (fun q => q) ⟨0, 0, List.replicate 160 ⟨0, VectorTag.NONE⟩⟩
      (List.replicate 100 ⟨0, VectorTag.NONE⟩) ⟨fd_init.core, List.replicate 16 0⟩
      (List.replicate 16 0) (by simp) (by simp)).2.2.2 (by simp)

end FunOfdm
